import Mathlib

/-
Verification of the DiskANN-in-Rust core (Vamana graph index) against its
natural-language specification.

The development shallowly embeds the relevant Rust code:
  - diskann-impl/src/graph.rs   (Candidate, VamanaIndex, beam search, prune,
                                 insert, remove, medoid, reachability)
  - diskann-traits/src/search.rs (SearchResult, SearchBuffer)
  - diskann-traits/src/distance.rs (EuclideanDistance, CosineDistance)
  - diskann-core/src/error.rs   (DiskAnnError)
  - diskann-core/src/math.rs    (dot_product, l2_norm_squared)

Modelling conventions:
  - f32 values are modelled as extended rationals (WithTop Rat): every finite
    float is a rational, and the f32 INFINITY sentinel is the top element.
    NaN never arises in any execution modelled here, so the total order on
    WithTop Rat agrees with the f32 comparisons performed by the code.
  - f32 sqrt is abstracted as a function parameter where it occurs; no claim
    depends on its values.
  - HashMap VectorId GraphNode is modelled as an association list in some
    iteration order; theorems quantify over the order, which subsumes every
    order the Rust HashMap can present.  HashSet VectorId is a list of keys.
  - The distance functor D (a type parameter of VamanaIndex in Rust) is
    passed explicitly as a function argument, as is the stored VamanaConfig.
  - Rust while-loops are embedded with explicit fuel; the fuel budgets chosen
    below are large enough that the out-of-fuel branch is never taken (beam
    search pushes each node id at most once, so its loop runs at most
    nodes.length + 1 times; robust prune strictly shrinks its candidate list
    every iteration).
-/

namespace DiskAnn

/-- Model of f32 distance values: finite floats as rationals plus the
INFINITY sentinel. -/
abbrev QInf := WithTop ℚ

/-- diskann-core/src/error.rs, DiskAnnError. -/
inductive DiskAnnError where
  | Computation (msg : String)
  | InvalidParameter (msg : String)
  | MemoryAllocation
  deriving DecidableEq

/-- graph.rs, struct Candidate. VectorId (u32) is modelled as Nat. -/
structure Candidate where
  id : Nat
  distance : QInf
  deriving DecidableEq

/-- graph.rs, Candidate::cmp gives this total order (Rust Ord le): the
distance comparison is reversed (for min-heap behaviour in BinaryHeap),
then ties compare ids ascending. -/
def candLe (a b : Candidate) : Prop :=
  b.distance < a.distance ∨ (b.distance = a.distance ∧ a.id ≤ b.id)

instance candLe.decide (a b : Candidate) : Decidable (candLe a b) := by
  unfold candLe; exact inferInstance

/-- Strict version of the Candidate order. -/
def candLt (a b : Candidate) : Prop :=
  b.distance < a.distance ∨ (b.distance = a.distance ∧ a.id < b.id)

instance candLt.decide (a b : Candidate) : Decidable (candLt a b) := by
  unfold candLt; exact inferInstance

/-- Rust BinaryHeap peek: the Ord-greatest element.  With the reversed order
of Candidate::cmp this is the element of least distance (ties: greatest id).
Among Ord-equal elements the order is antisymmetric, so the choice below
(keep the earlier element) is canonical. -/
def heapMax : List Candidate → Option Candidate
  | [] => none
  | c :: cs =>
    match heapMax cs with
    | none => some c
    | some m => some (if candLt c m then m else c)

/-- Rust BinaryHeap pop: remove and return the Ord-greatest element. -/
def popMax (l : List Candidate) : Option (Candidate × List Candidate) :=
  match heapMax l with
  | none => none
  | some m => some (m, l.erase m)

/-- Pop with the returned element discarded (the shrink step of the best
heap in beam search). -/
def popDiscard (l : List Candidate) : List Candidate :=
  match popMax l with
  | none => l
  | some p => p.2

/-- Rust BinaryHeap::into_sorted_vec: ascending in the Candidate Ord. -/
def intoSortedVec (l : List Candidate) : List Candidate :=
  List.insertionSort candLe l

/-- graph.rs beam search epilogue: into_sorted_vec, reverse, truncate(k). -/
def drainTopK (best : List Candidate) (k : Nat) : List Candidate :=
  ((intoSortedVec best).reverse).take k

/-- diskann-core/src/structures.rs, GraphNode. Vector entries are modelled
as rationals (finite f32 values). -/
structure GraphNode where
  id : Nat
  vector : List ℚ
  neighbors : List Nat
  deriving DecidableEq

/-- structures.rs, GraphNode::new. -/
def GraphNode.new (id : Nat) (vector : List ℚ) : GraphNode :=
  ⟨id, vector, []⟩

/-- The nodes HashMap, as an association list in iteration order. -/
abbrev Nodes := List (Nat × GraphNode)

/-- HashMap::get: the entry stored under the key (the first match; keys are
unique in every map the code builds). -/
def hmGet : Nodes → Nat → Option GraphNode
  | [], _ => none
  | p :: rest, k => if p.1 = k then some p.2 else hmGet rest k

/-- HashMap::contains_key. -/
def hmContains (nodes : Nodes) (k : Nat) : Bool :=
  (hmGet nodes k).isSome

/-- HashMap::insert: replace in place when the key exists, else append. -/
def hmInsert (nodes : Nodes) (k : Nat) (v : GraphNode) : Nodes :=
  if hmContains nodes k then
    nodes.map (fun p => if p.1 = k then (k, v) else p)
  else nodes ++ [(k, v)]

/-- HashMap::remove. -/
def hmRemove (nodes : Nodes) (k : Nat) : Nodes :=
  nodes.filter (fun p => p.1 != k)

/-- nodes.keys().next(). -/
def hmFirstKey (nodes : Nodes) : Option Nat :=
  nodes.head?.map Prod.fst

/-- nodes.keys() collected in iteration order. -/
def hmKeys (nodes : Nodes) : List Nat :=
  nodes.map Prod.fst

/-- HashMap::get_mut followed by an update of the entry. -/
def hmModify (nodes : Nodes) (k : Nat) (f : GraphNode → GraphNode) : Nodes :=
  nodes.map (fun p => if p.1 = k then (p.1, f p.2) else p)

/-- graph.rs, VamanaConfig. alpha is a finite positive float, modelled as a
rational. -/
structure VamanaConfig where
  max_degree : Nat
  search_list_size : Nat
  seed : Nat
  alpha : ℚ

/-- VamanaConfig::default: R = 64, L = 100, seed = 42, alpha = 1.2. -/
def VamanaConfig.default : VamanaConfig :=
  ⟨64, 100, 42, 6/5⟩

/-- graph.rs, VamanaIndex.  The distance functor and the stored config are
passed explicitly to each operation. -/
structure VamanaIndex where
  nodes : Nodes
  start_node : Option Nat
  deriving DecidableEq

/-- The distance functor contract: two f32 vectors to an f32 score. -/
abbrev DistFn := List ℚ → List ℚ → QInf

/-- diskann-traits/src/search.rs, SearchResult. -/
structure SearchResult where
  id : Nat
  distance : QInf
  deriving DecidableEq

/-- State of the beam_search loop (HashSet visited set).  observed is a
ghost field recording every candidate ever pushed to the best heap; it has
no influence on the computation and exists only to state heap invariants. -/
structure LoopState where
  frontier : List Candidate
  best : List Candidate
  visited : List Nat
  observed : List Candidate
  deriving DecidableEq

/-- Body of the neighbor loop of beam_search: mark the neighbor visited
(before the node lookup, as the Rust code does), then compute its distance
and push it to both heaps, shrinking the best heap when it exceeds the
effective beam width. -/
def visitNeighbor (dist : DistFn) (nodes : Nodes) (query : List ℚ) (ebw : Nat)
    (s : LoopState) (nid : Nat) : LoopState :=
  if nid ∈ s.visited then s
  else
    let vis := nid :: s.visited
    match hmGet nodes nid with
    | none => { s with visited := vis }
    | some nnode =>
      let c : Candidate := ⟨nid, dist query nnode.vector⟩
      let best1 := c :: s.best
      let best2 := if best1.length > ebw then popDiscard best1 else best1
      ⟨c :: s.frontier, best2, vis, c :: s.observed⟩

/-- Explore all neighbors of the current candidate. -/
def beamStep (dist : DistFn) (nodes : Nodes) (query : List ℚ) (ebw : Nat)
    (s : LoopState) (current : Candidate) : LoopState :=
  match hmGet nodes current.id with
  | none => s
  | some node => node.neighbors.foldl (visitNeighbor dist nodes query ebw) s

/-- The while-let loop of beam_search.  The break test compares the popped
candidate against the peek of the best heap once that heap holds at least
ebw elements. -/
def beamLoop (dist : DistFn) (nodes : Nodes) (query : List ℚ) (ebw : Nat) :
    Nat → LoopState → LoopState
  | 0, s => s
  | Nat.succ fuel, s =>
    match popMax s.frontier with
    | none => s
    | some (current, rest) =>
      let s1 := { s with frontier := rest }
      let stop : Bool :=
        match heapMax s1.best with
        | some furthest =>
          decide (s1.best.length ≥ ebw) && decide (current.distance > furthest.distance)
        | none => false
      cond stop s1
        (beamLoop dist nodes query ebw fuel (beamStep dist nodes query ebw s1 current))

/-- graph.rs, VamanaIndex::beam_search up to (and excluding) the drain of
the best heap.  Fuel nodes.length + 1 is never exhausted: every loop
iteration pops one frontier element and each node id is pushed at most
once. -/
def beamSearchRun (dist : DistFn) (nodes : Nodes) (query : List ℚ)
    (k beamWidth : Nat) (startId : Nat) : LoopState :=
  match (if hmContains nodes startId then some startId else hmFirstKey nodes) with
  | none => ⟨[], [], [], []⟩
  | some actual =>
    let ebw := max beamWidth (k * 2)
    let startVec := match hmGet nodes actual with
      | some nd => nd.vector
      | none => []
    let c0 : Candidate := ⟨actual, dist query startVec⟩
    beamLoop dist nodes query ebw (nodes.length + 1) ⟨[c0], [c0], [actual], [c0]⟩

/-- graph.rs, VamanaIndex::beam_search. -/
def beamSearch (dist : DistFn) (nodes : Nodes) (query : List ℚ)
    (k beamWidth : Nat) (startId : Nat) : List Candidate :=
  drainTopK (beamSearchRun dist nodes query k beamWidth startId).best k

/-- diskann-traits/src/search.rs, SearchBuffer. -/
structure SearchBuffer where
  candidates : List Nat
  distances : List QInf
  visited : List Bool
  deriving DecidableEq

/-- search.rs, SearchBuffer::clear. -/
def SearchBuffer.clear (_b : SearchBuffer) : SearchBuffer :=
  ⟨[], [], []⟩

/-- search.rs, SearchBuffer::resize_for_nodes: resize visited to exactly
num_nodes entries, then fill with false. -/
def SearchBuffer.resizeForNodes (b : SearchBuffer) (numNodes : Nat) : SearchBuffer :=
  { b with visited := List.replicate numNodes false }

/-- State of the beam_search_with_buffer loop: the visited set is the dense
bitmap owned by the buffer. -/
structure BufLoopState where
  frontier : List Candidate
  best : List Candidate
  visitedBits : List Bool
  deriving DecidableEq

/-- Neighbor step of beam_search_with_buffer: a neighbor is explored only
when its id indexes inside the bitmap and is unmarked. -/
def visitNeighborBuf (dist : DistFn) (nodes : Nodes) (query : List ℚ) (ebw : Nat)
    (s : BufLoopState) (nid : Nat) : BufLoopState :=
  if nid < s.visitedBits.length ∧ s.visitedBits.getD nid false = false then
    let vis := s.visitedBits.set nid true
    match hmGet nodes nid with
    | none => { s with visitedBits := vis }
    | some nnode =>
      let c : Candidate := ⟨nid, dist query nnode.vector⟩
      let best1 := c :: s.best
      let best2 := if best1.length > ebw then popDiscard best1 else best1
      ⟨c :: s.frontier, best2, vis⟩
  else s

/-- Explore all neighbors of the current candidate (buffer variant). -/
def beamStepBuf (dist : DistFn) (nodes : Nodes) (query : List ℚ) (ebw : Nat)
    (s : BufLoopState) (current : Candidate) : BufLoopState :=
  match hmGet nodes current.id with
  | none => s
  | some node => node.neighbors.foldl (visitNeighborBuf dist nodes query ebw) s

/-- The while-let loop of beam_search_with_buffer. -/
def beamLoopBuf (dist : DistFn) (nodes : Nodes) (query : List ℚ) (ebw : Nat) :
    Nat → BufLoopState → BufLoopState
  | 0, s => s
  | Nat.succ fuel, s =>
    match popMax s.frontier with
    | none => s
    | some (current, rest) =>
      let s1 := { s with frontier := rest }
      let stop : Bool :=
        match heapMax s1.best with
        | some furthest =>
          decide (s1.best.length ≥ ebw) && decide (current.distance > furthest.distance)
        | none => false
      cond stop s1
        (beamLoopBuf dist nodes query ebw fuel (beamStepBuf dist nodes query ebw s1 current))

/-- graph.rs, VamanaIndex::beam_search_with_buffer.  The buffer is cleared
and its bitmap resized to nodes.len() at entry; the start node is marked
only when its id indexes inside the bitmap (Vec::get_mut). -/
def beamSearchWithBuffer (dist : DistFn) (nodes : Nodes) (query : List ℚ)
    (k beamWidth : Nat) (startId : Nat) (buffer : SearchBuffer) : List Candidate :=
  let buf := (buffer.clear).resizeForNodes nodes.length
  match (if hmContains nodes startId then some startId else hmFirstKey nodes) with
  | none => []
  | some actual =>
    let ebw := max beamWidth (k * 2)
    let startVec := match hmGet nodes actual with
      | some nd => nd.vector
      | none => []
    let c0 : Candidate := ⟨actual, dist query startVec⟩
    let bits0 := buf.visited.set actual true
    let final := beamLoopBuf dist nodes query ebw (nodes.length + 1) ⟨[c0], [c0], bits0⟩
    drainTopK final.best k

/-- Start-node selection shared by the three search entry points: the stored
start node when it is live, else the first key.  Only called on a non-empty
map, so the default of getD is unreachable. -/
def startIdFor (idx : VamanaIndex) : Nat :=
  match idx.start_node with
  | some start => if hmContains idx.nodes start then start else (hmFirstKey idx.nodes).getD 0
  | none => (hmFirstKey idx.nodes).getD 0

/-- graph.rs, Search::search for VamanaIndex: beam width is the configured
search_list_size. -/
def vamanaSearch (dist : DistFn) (cfg : VamanaConfig) (idx : VamanaIndex)
    (query : List ℚ) (k : Nat) : Except DiskAnnError (List SearchResult) :=
  if idx.nodes.isEmpty then .ok []
  else
    let startId := startIdFor idx
    let cands := beamSearch dist idx.nodes query k cfg.search_list_size startId
    .ok (cands.map (fun c => ⟨c.id, c.distance⟩))

/-- graph.rs, Search::search_with_beam for VamanaIndex. -/
def searchWithBeam (dist : DistFn) (idx : VamanaIndex) (query : List ℚ)
    (k beamWidth : Nat) : Except DiskAnnError (List SearchResult) :=
  if idx.nodes.isEmpty then .ok []
  else
    let startId := startIdFor idx
    let cands := beamSearch dist idx.nodes query k beamWidth startId
    .ok (cands.map (fun c => ⟨c.id, c.distance⟩))

/-- graph.rs, Search::search_with_buffer for VamanaIndex. -/
def searchWithBuffer (dist : DistFn) (idx : VamanaIndex) (query : List ℚ)
    (k beamWidth : Nat) (buffer : SearchBuffer) :
    Except DiskAnnError (List SearchResult) :=
  if idx.nodes.isEmpty then .ok []
  else
    let startId := startIdFor idx
    let cands := beamSearchWithBuffer dist idx.nodes query k beamWidth startId buffer
    .ok (cands.map (fun c => ⟨c.id, c.distance⟩))

/-- diskann-core/src/math.rs, dot_product: fold of pairwise products. -/
def dot_product (a b : List ℚ) : ℚ :=
  (a.zip b).foldl (fun acc p => acc + p.1 * p.2) 0

/-- diskann-core/src/math.rs, l2_norm_squared: fold of squares. -/
def l2_norm_squared (v : List ℚ) : ℚ :=
  v.foldl (fun acc x => acc + x * x) 0

/-- distance.rs, EuclideanDistance squared_distance for f32: the INFINITY
sentinel on length mismatch, else the sum of squared differences. -/
def squaredDistance (a b : List ℚ) : QInf :=
  if a.length ≠ b.length then ⊤
  else ((a.zip b).foldl (fun sum p => sum + (p.1 - p.2) * (p.1 - p.2)) (0 : ℚ) : ℚ)

/-- distance.rs, EuclideanDistance distance for f32: sqrt of the squared
distance.  f32 sqrt is abstracted as sq (sqrt of INFINITY is INFINITY). -/
def euclideanDistance (sq : ℚ → ℚ) (a b : List ℚ) : QInf :=
  WithTop.map sq (squaredDistance a b)

/-- distance.rs, CosineDistance distance for f32.  sq abstracts f32 sqrt.
The final expression clamps the similarity into the range -1 to 1 before
subtracting from 1, so the result of that branch lies in the range 0 to 2. -/
def cosineDistance (sq : ℚ → ℚ) (a b : List ℚ) : QInf :=
  if a.length ≠ b.length then ⊤
  else if a.isEmpty then 0
  else
    let dot := dot_product a b
    let normASq := l2_norm_squared a
    let normBSq := l2_norm_squared b
    if normASq = 0 ∨ normBSq = 0 then 1
    else ((1 - min (max (dot / (sq normASq * sq normBSq)) (-1)) 1 : ℚ) : QInf)

/-- alpha * distance, where alpha is the finite config parameter and the
distance may be the INFINITY sentinel.  Faithful to f32 multiplication for
alpha greater than 0 (the configured range is alpha at least 1). -/
def alphaMul (alpha : ℚ) (d : QInf) : QInf :=
  WithTop.map (fun q => alpha * q) d

/-- Rust Iterator::min_by on the candidate distances, over the enumerated
remaining list: it reduces with core::cmp::min_by, which keeps the first
argument (the accumulator) when the comparison is Equal, so when several
elements are equally minimal the FIRST one is returned and a later element
replaces the accumulator only when strictly smaller. -/
def minByDistance (l : List (Nat × Candidate)) : Option (Nat × Candidate) :=
  l.foldl (fun acc p =>
    match acc with
    | none => some p
    | some q => if p.2.distance < q.2.distance then some p else some q) none

/-- The while loop of robust_prune.  Each iteration removes the min_by
element by index and retains only candidates strictly within alpha times
their distance to the selected node (candidates whose id does not resolve
are dropped; when the selected id does not resolve no filtering happens).
Fuel starts at the candidate count and is never exhausted since remaining
shrinks by at least one element per iteration. -/
def robustPruneLoop (dist : DistFn) (nodes : Nodes) (maxDegree : Nat) (alpha : ℚ) :
    Nat → List Candidate → List Nat → List Nat
  | 0, _, pruned => pruned
  | Nat.succ fuel, remaining, pruned =>
    if remaining.isEmpty ∨ pruned.length ≥ maxDegree then pruned
    else
      match minByDistance remaining.enum with
      | none => pruned
      | some (bestIdx, best) =>
        let rest := remaining.eraseIdx bestIdx
        let pruned1 := pruned ++ [best.id]
        let rest1 := match hmGet nodes best.id with
          | none => rest
          | some bestNode =>
            rest.filter (fun cand =>
              match hmGet nodes cand.id with
              | none => false
              | some cn =>
                decide (cand.distance < alphaMul alpha (dist bestNode.vector cn.vector)))
        robustPruneLoop dist nodes maxDegree alpha fuel rest1 pruned1

/-- graph.rs, VamanaIndex::robust_prune. -/
def robustPrune (dist : DistFn) (nodes : Nodes) (maxDegree : Nat) (alpha : ℚ)
    (candidates : List Candidate) : List Nat :=
  if candidates.isEmpty then []
  else robustPruneLoop dist nodes maxDegree alpha candidates.length candidates []

/-- Summed distance of one medoid candidate to every node, in iteration
order (graph.rs find_medoid inner map-sum; the lookup of other ids cannot
fail since they are keys of the same map). -/
def totalDistanceFrom (dist : DistFn) (nodes : Nodes) (candVec : List ℚ)
    (candId : Nat) : QInf :=
  (hmKeys nodes).foldl (fun acc otherId =>
    acc + (if candId = otherId then 0 else
      match hmGet nodes otherId with
      | some other => dist candVec other.vector
      | none => 0)) 0

/-- graph.rs, VamanaIndex::find_medoid: the node of strictly least total
distance, first occurrence winning ties, starting from best_total INFINITY
and best_id the first key. -/
def findMedoid (dist : DistFn) (nodes : Nodes) : Option Nat :=
  if nodes.isEmpty then none
  else
    let nodeIds := hmKeys nodes
    if nodeIds.length = 1 then nodeIds.head?
    else
      let init : Nat × QInf := (nodeIds.headD 0, ⊤)
      some (nodeIds.foldl (fun acc candId =>
        let candVec := match hmGet nodes candId with
          | some n => n.vector
          | none => []
        let total := totalDistanceFrom dist nodes candVec candId
        if total < acc.2 then (candId, total) else acc) init).1

/-- The candidate rebuilt for one id of an overflowing neighbor list inside
insert_node: the distance from the overflowing node's vector to the id's
node, INFINITY when the id does not resolve. -/
def nbCandOf (dist : DistFn) (ns1 : Nodes) (basevec : List ℚ) (nbid : Nat) :
    Candidate :=
  match hmGet ns1 nbid with
  | some nbNode => ⟨nbid, dist basevec nbNode.vector⟩
  | none => ⟨nbid, ⊤⟩

/-- One reverse-edge installation of insert_node: push the new id onto the
neighbor list of nbId; when the list then exceeds max_degree, rebuild the
candidate set from the pushed list (unresolvable ids get INFINITY) and
overwrite with its robust_prune. -/
def reverseEdgeStep (dist : DistFn) (cfg : VamanaConfig) (ns : Nodes)
    (id nbId : Nat) : Nodes :=
  match hmGet ns nbId with
  | none => ns
  | some nb =>
    let newNbrs := nb.neighbors ++ [id]
    let ns1 := hmModify ns nbId (fun n => { n with neighbors := n.neighbors ++ [id] })
    if newNbrs.length > cfg.max_degree then
      let nbCands := newNbrs.map (nbCandOf dist ns1 nb.vector)
      let prunedNbrs := robustPrune dist ns1 cfg.max_degree cfg.alpha nbCands
      hmModify ns1 nbId (fun n => { n with neighbors := prunedNbrs })
    else ns1

/-- graph.rs, VamanaIndex::insert_node.  Returns Ok on every path. -/
def insertNode (dist : DistFn) (cfg : VamanaConfig) (idx : VamanaIndex)
    (id : Nat) (vector : List ℚ) : Except DiskAnnError VamanaIndex :=
  let newNode := GraphNode.new id vector
  if idx.nodes.isEmpty then
    .ok ⟨hmInsert idx.nodes id newNode, some id⟩
  else
    let startId := idx.start_node.getD ((hmFirstKey idx.nodes).getD 0)
    let candidates := beamSearch dist idx.nodes vector
      cfg.search_list_size cfg.search_list_size startId
    let neighbors := robustPrune dist idx.nodes cfg.max_degree cfg.alpha candidates
    let nodes1 := hmInsert idx.nodes id { newNode with neighbors := neighbors }
    let nodes2 := neighbors.foldl (fun ns nbId => reverseEdgeStep dist cfg ns id nbId) nodes1
    .ok ⟨nodes2, findMedoid dist nodes2⟩

/-- The forward half of the connectivity repair of remove_node: append each
new connection to nbId's list while absent and below max_degree. -/
def addConns (ns : Nodes) (nbId : Nat) (conns : List Nat) (maxDeg : Nat) : Nodes :=
  match hmGet ns nbId with
  | none => ns
  | some nb =>
    let newList := conns.foldl
      (fun l c => if c ∉ l ∧ l.length < maxDeg then l ++ [c] else l) nb.neighbors
    hmModify ns nbId (fun n => { n with neighbors := newList })

/-- The reverse half of the connectivity repair of remove_node. -/
def addReverse (ns : Nodes) (nbId : Nat) (conns : List Nat) (maxDeg : Nat) : Nodes :=
  conns.foldl (fun ns2 c =>
    match hmGet ns2 nbId with
    | none => ns2
    | some nb =>
      if c ∈ nb.neighbors then
        match hmGet ns2 c with
        | none => ns2
        | some cn =>
          if nbId ∉ cn.neighbors ∧ cn.neighbors.length < maxDeg then
            hmModify ns2 c (fun n => { n with neighbors := n.neighbors ++ [nbId] })
          else ns2
      else ns2) ns

/-- One iteration of the repair loop of remove_node over a captured
neighbor of the removed node. -/
def repairStep (dist : DistFn) (cfg : VamanaConfig) (startNode : Option Nat)
    (neighbors : List Nat) (ns : Nodes) (nbId : Nat) : Nodes :=
  match hmGet ns nbId with
  | none => ns
  | some nb =>
    let others := neighbors.filter (fun x => x ≠ nbId)
    if others.isEmpty then ns
    else
      let startId := startNode.getD (others.headD 0)
      let cands := beamSearch dist ns nb.vector
        cfg.search_list_size cfg.search_list_size startId
      let newConns := robustPrune dist ns cfg.max_degree cfg.alpha cands
      addReverse (addConns ns nbId newConns cfg.max_degree) nbId newConns cfg.max_degree

/-- graph.rs, VamanaIndex::remove_node.  Returns Ok on every path. -/
def removeNode (dist : DistFn) (cfg : VamanaConfig) (idx : VamanaIndex)
    (id : Nat) : Except DiskAnnError VamanaIndex :=
  if ¬ hmContains idx.nodes id then .ok idx
  else
    let neighbors := match hmGet idx.nodes id with
      | some n => n.neighbors
      | none => []
    let nodes1 := hmRemove idx.nodes id
    let nodes2 := neighbors.foldl (fun ns nbId =>
      hmModify ns nbId (fun n =>
        { n with neighbors := n.neighbors.filter (fun x => x ≠ id) })) nodes1
    let nodes3 := if neighbors.length > 1 then
        neighbors.foldl (repairStep dist cfg idx.start_node neighbors) nodes2
      else nodes2
    let start1 := if idx.start_node = some id then findMedoid dist nodes3 else idx.start_node
    .ok ⟨nodes3, start1⟩

/-- graph.rs, Index::add for VamanaIndex. -/
def vamanaAdd (dist : DistFn) (cfg : VamanaConfig) (idx : VamanaIndex)
    (id : Nat) (vector : List ℚ) : Except DiskAnnError VamanaIndex :=
  insertNode dist cfg idx id vector

/-- graph.rs, Index::remove for VamanaIndex. -/
def vamanaRemove (dist : DistFn) (cfg : VamanaConfig) (idx : VamanaIndex)
    (id : Nat) : Except DiskAnnError VamanaIndex :=
  removeNode dist cfg idx id

/-- graph.rs, Index::size for VamanaIndex: nodes.len(). -/
def vamanaSize (idx : VamanaIndex) : Nat :=
  idx.nodes.length

/-- The inner double loop of one BFS level of is_reachable_within_k_hops:
none signals that the target was found among some neighbor list; otherwise
the accumulated (next_level, visited) pair. -/
def expandNode (nodes : Nodes) (targetId : Nat)
    (acc : Option (List Nat × List Nat)) (nodeId : Nat) :
    Option (List Nat × List Nat) :=
  match acc with
  | none => none
  | some (nextLevel, visited) =>
    match hmGet nodes nodeId with
    | none => some (nextLevel, visited)
    | some node =>
      node.neighbors.foldl (fun acc2 nbId =>
        match acc2 with
        | none => none
        | some (nl, vis) =>
          if nbId = targetId then none
          else if nbId ∈ vis then some (nl, vis)
          else some (nl ++ [nbId], nbId :: vis)) (some (nextLevel, visited))

/-- The for loop over at most k BFS levels. -/
def reachLoop (nodes : Nodes) (targetId : Nat) :
    Nat → List Nat → List Nat → Bool
  | 0, _, _ => false
  | Nat.succ k, currentLevel, visited =>
    match currentLevel.foldl (expandNode nodes targetId) (some ([], visited)) with
    | none => true
    | some (nextLevel, visited1) =>
      if nextLevel.isEmpty then false
      else reachLoop nodes targetId k nextLevel visited1

/-- graph.rs, VamanaIndex::is_reachable_within_k_hops. -/
def isReachableWithinKHops (idx : VamanaIndex) (targetId pivotId : Nat)
    (k : Nat) : Bool :=
  if targetId = pivotId then true
  else reachLoop idx.nodes targetId k [pivotId] [pivotId]

/-! Definitions used only to state properties (spec orderings, invariant
predicates, formalizations of spec wording, and concrete example inputs). -/

/-- The result list of a search call (all three search entry points return
Ok on every path). -/
def resultsOf : Except DiskAnnError (List SearchResult) → List SearchResult
  | .ok rs => rs
  | .error _ => []

/-- Whether a fallible index operation succeeded. -/
def returnsOk {α : Type} : Except DiskAnnError α → Bool
  | .ok _ => true
  | .error _ => false

/-- The ordering of results asserted by the spec: ascending by distance,
ties broken by ascending id. -/
def specResultLe (a b : SearchResult) : Prop :=
  a.distance < b.distance ∨ (a.distance = b.distance ∧ a.id ≤ b.id)

instance specResultLe.decide (a b : SearchResult) : Decidable (specResultLe a b) := by
  unfold specResultLe; exact inferInstance

/-- The ordering the code actually produces: ascending by distance, ties
broken by DESCENDING id (the reverse of into_sorted_vec). -/
def resultAfter (a b : SearchResult) : Prop :=
  a.distance < b.distance ∨ (a.distance = b.distance ∧ b.id ≤ a.id)

instance resultAfter.decide (a b : SearchResult) : Decidable (resultAfter a b) := by
  unfold resultAfter; exact inferInstance

/-- Closeness ordering on candidates as the spec uses it: ascending by
distance, ties broken by ascending id. -/
def specCandLe (a b : Candidate) : Prop :=
  a.distance < b.distance ∨ (a.distance = b.distance ∧ a.id ≤ b.id)

instance specCandLe.decide (a b : Candidate) : Decidable (specCandLe a b) := by
  unfold specCandLe; exact inferInstance

/-- The n closest candidates of a collection, in the sense of the spec. -/
def closestCands (n : Nat) (obs : List Candidate) : List Candidate :=
  (List.insertionSort specCandLe obs).take n

/-- Characterization of the best heap proved below: it is a sub-multiset of
the observed candidates, saturated at the effective beam width, and every
observed candidate outside of it precedes (in the reversed Candidate order)
every member, i.e. the heap keeps the FARTHEST observed candidates. -/
def heapHoldsFarthest (ebw : Nat) (best observed : List Candidate) : Prop :=
  (↑best : Multiset Candidate) ≤ (↑observed : Multiset Candidate) ∧
  best.length = min observed.length ebw ∧
  ∀ o ∈ ((↑observed : Multiset Candidate) - (↑best : Multiset Candidate)),
    ∀ b ∈ best, candLe b o

/-- The per-node graph invariants stated by the spec: degree bound, no
self-loop, no duplicate neighbors, every neighbor resolves. -/
def nodeInvariants (maxDeg : Nat) (nodes : Nodes) : Prop :=
  ∀ p ∈ nodes, p.2.neighbors.length ≤ maxDeg ∧ p.1 ∉ p.2.neighbors ∧
    p.2.neighbors.Nodup ∧ ∀ m ∈ p.2.neighbors, hmContains nodes m = true

/-- The empty index. -/
def emptyIndex : VamanaIndex := ⟨[], none⟩

/-- A sequence of add operations applied from the empty index (Index::add;
each call returns Ok, so the error branch of the match never fires). -/
def applyAdds (dist : DistFn) (cfg : VamanaConfig) (ops : List (Nat × List ℚ)) :
    VamanaIndex :=
  ops.foldl (fun idx op =>
    match vamanaAdd dist cfg idx op.1 op.2 with
    | .ok idx2 => idx2
    | .error _ => idx) emptyIndex

/-- The vector stored for an id (used to phrase spec pruning over the same
vectors the code looks up; the default is never reached when the id
resolves). -/
def vecIn (nodes : Nodes) (i : Nat) : List ℚ :=
  ((hmGet nodes i).map GraphNode.vector).getD []

/-- Modelled from the spec wording of claim C6: select the remaining
candidate with minimum distance, breaking ties by SMALLEST id. -/
def claimSelectMinId (v : List Candidate) : Option Candidate :=
  v.foldl (fun acc c =>
    match acc with
    | none => some c
    | some m =>
      if c.distance < m.distance ∨ (c.distance = m.distance ∧ c.id < m.id)
      then some c else some m) none

/-- Modelled from the spec wording of claim C6 (the alpha-RNG rule with
smallest-id tie-breaking): repeatedly select per claimSelectMinId, append
the id, and keep only remaining candidates strictly within alpha times
their distance to the selected node. -/
def prunePolicyMinId (dist : DistFn) (vecOf : Nat → List ℚ) (maxDeg : Nat)
    (alpha : ℚ) : Nat → List Candidate → List Nat → List Nat
  | 0, _, acc => acc
  | Nat.succ fuel, v, acc =>
    if v.isEmpty ∨ acc.length ≥ maxDeg then acc
    else
      match claimSelectMinId v with
      | none => acc
      | some sel =>
        let rest := v.erase sel
        let kept := rest.filter (fun w =>
          decide (w.distance < alphaMul alpha (dist (vecOf sel.id) (vecOf w.id))))
        prunePolicyMinId dist vecOf maxDeg alpha fuel kept (acc ++ [sel.id])

/-- The claim-C6 pruning procedure (smallest-id tie-breaking). -/
def pruneClaimMinId (dist : DistFn) (vecOf : Nat → List ℚ) (maxDeg : Nat)
    (alpha : ℚ) (cands : List Candidate) : List Nat :=
  prunePolicyMinId dist vecOf maxDeg alpha cands.length cands []

/-- The amended selection rule: among the candidates of minimum distance,
take the FIRST occurrence in list order (the behaviour of Rust
Iterator::min_by, which keeps the accumulator on Ordering::Equal). -/
def firstArgmin (v : List Candidate) : Option (Nat × Candidate) :=
  (v.enum.filter (fun p => decide (∀ c ∈ v, p.2.distance ≤ c.distance))).head?

/-- Bridge recursion used to relate the fold of Iterator::min_by to
firstArgmin: the minimal-distance element of an enumerated candidate list,
with ties resolved towards the head. -/
def firstMin : List (Nat × Candidate) → Option (Nat × Candidate)
  | [] => none
  | p :: l =>
    match firstMin l with
    | none => some p
    | some q => if q.2.distance < p.2.distance then some q else some p

/-- Merge of a fold accumulator with the winner of the rest of the list
(ties prefer the accumulator, which comes earlier in iteration order). -/
def combineMin (acc w : Option (Nat × Candidate)) : Option (Nat × Candidate) :=
  match acc, w with
  | none, w => w
  | some q, none => some q
  | some q, some r => if r.2.distance < q.2.distance then some r else some q

/-- Modelled from the amended spec wording of claim C6: the alpha-RNG rule
with the tie broken towards the FIRST minimal candidate in list order. -/
def prunePolicyFirstTie (dist : DistFn) (vecOf : Nat → List ℚ) (maxDeg : Nat)
    (alpha : ℚ) : Nat → List Candidate → List Nat → List Nat
  | 0, _, acc => acc
  | Nat.succ fuel, v, acc =>
    if v.isEmpty ∨ acc.length ≥ maxDeg then acc
    else
      match firstArgmin v with
      | none => acc
      | some (i, sel) =>
        let rest := v.eraseIdx i
        let kept := rest.filter (fun w =>
          decide (w.distance < alphaMul alpha (dist (vecOf sel.id) (vecOf w.id))))
        prunePolicyFirstTie dist vecOf maxDeg alpha fuel kept (acc ++ [sel.id])

/-- The amended pruning procedure (first-occurrence tie-breaking). -/
def pruneSpecFirstTie (dist : DistFn) (vecOf : Nat → List ℚ) (maxDeg : Nat)
    (alpha : ℚ) (cands : List Candidate) : List Nat :=
  prunePolicyFirstTie dist vecOf maxDeg alpha cands.length cands []

instance exceptDecEq {e a : Type} [DecidableEq e] [DecidableEq a] :
    DecidableEq (Except e a) := fun x y =>
  match x, y with
  | .ok u, .ok v =>
    if h : u = v then isTrue (by rw [h]) else
      isFalse (fun he => h (by injection he))
  | .error u, .error v =>
    if h : u = v then isTrue (by rw [h]) else
      isFalse (fun he => h (by injection he))
  | .ok _, .error _ => isFalse (fun he => by injection he)
  | .error _, .ok _ => isFalse (fun he => by injection he)

instance nodeInvariants.decide (maxDeg : Nat) (nodes : Nodes) :
    Decidable (nodeInvariants maxDeg nodes) := by
  unfold nodeInvariants; exact inferInstance

/-- Simulation relation between the HashSet-based and the bitmap-based beam
search loop states: heaps agree, the bitmap has one slot per node, and below
the node count the bitmap marks exactly the visited ids.  (Ids at or above
the node count can appear in the HashSet but never resolve to a node when
ids are dense, so they have no observable effect.) -/
def BufSim (nodes : Nodes) (s : LoopState) (t : BufLoopState) : Prop :=
  t.frontier = s.frontier ∧ t.best = s.best ∧
  t.visitedBits.length = nodes.length ∧
  ∀ n, n < nodes.length → (t.visitedBits.getD n false = true ↔ n ∈ s.visited)

/-! Concrete inputs used by counterexamples and witnesses.  The distance
functions below are lookup tables with literal values, so that concrete
executions stay within kernel-computable arithmetic; where noted they
coincide with the squared euclidean distances of the vectors involved. -/

/-- A distance functor that returns 0 for every pair.  On the inputs it is
used with (vector 0 against vector 0) this agrees with squared L2. -/
def exDistZero : DistFn := fun _ _ => 0

/-- A distance functor that returns the INFINITY sentinel for every pair
(f32 INFINITY is an admissible distance value). -/
def exDistTop : DistFn := fun _ _ => ⊤

/-- A distance functor that returns 2 for every pair.  On the pairs it is
used with (query 1,1 against 2,0 and against 0,2) this agrees with squared
L2. -/
def exDistTwo : DistFn := fun _ _ => 2

/-- Squared L2 distances from the query vector 0 to the one-dimensional
vectors 3, 1 and 10, as a lookup table. -/
def exDistBeam : DistFn := fun _ v =>
  if v = [3] then 9 else if v = [1] then 1 else if v = [10] then 100 else 0

/-- Squared L2 distances from the query vector 10 to the one-dimensional
vectors 0 and 10, as a lookup table. -/
def exDistSparse : DistFn := fun _ v => if v = [0] then 100 else 0

/-- Three nodes on a line: 0 (at 3) points to 1 (at 1) and 2 (at 10). -/
def exNodesBeam : Nodes :=
  [(0, ⟨0, [3], [1, 2]⟩), (1, ⟨1, [1], []⟩), (2, ⟨2, [10], []⟩)]

/-- Two mutually linked nodes equidistant from the query vector used with
them. -/
def exIndexTie : VamanaIndex :=
  ⟨[(0, ⟨0, [2, 0], [1]⟩), (1, ⟨1, [0, 2], [0]⟩)], some 0⟩

/-- Two mutually linked nodes with sparse ids 0 and 5. -/
def exIndexSparse : VamanaIndex :=
  ⟨[(0, ⟨0, [0], [5]⟩), (5, ⟨5, [10], [0]⟩)], some 0⟩

/-- A single-node index holding id 0. -/
def exIndexSingle : VamanaIndex :=
  ⟨[(0, ⟨0, [0], []⟩)], some 0⟩

/-- A single-node index with a two-dimensional vector. -/
def exIndexDim : VamanaIndex :=
  ⟨[(0, ⟨0, [1, 0], []⟩)], some 0⟩

/-- Two isolated nodes far apart, used as the prune graph. -/
def exNodesPrune : Nodes :=
  [(1, ⟨1, [0], []⟩), (2, ⟨2, [100], []⟩)]

/-- Two prune candidates with equal distance to the source, listed with the
larger id first so that list order and id order disagree. -/
def exCandsPrune : List Candidate :=
  [⟨2, (5 : QInf)⟩, ⟨1, (5 : QInf)⟩]

/-! Helper lemmas about the association-list HashMap model. -/

theorem hmGet_hmModify (ns : Nodes) (k : Nat) (f : GraphNode → GraphNode) (i : Nat) :
    hmGet (hmModify ns k f) i
      = if i = k then (hmGet ns i).map f else hmGet ns i := by
  induction ns with
  | nil => simp [hmGet, hmModify]
  | cons p rest ih =>
    by_cases hpk : p.1 = k
    · by_cases hpi : p.1 = i
      · subst hpk; subst hpi
        simp [hmGet, hmModify]
      · have hik : ¬ i = k := fun he => hpi (he ▸ hpk)
        simp only [hmModify, List.map_cons] at ih ⊢
        rw [if_pos hpk]
        simp only [hmGet]
        rw [if_neg (hpk ▸ hpi), if_neg hpi, ih, if_neg hik]
    · by_cases hpi : p.1 = i
      · simp only [hmModify, List.map_cons]
        rw [if_neg hpk]
        simp only [hmGet]
        rw [if_pos hpi, if_pos hpi]
        have hik : ¬ i = k := fun he => hpk (hpi.trans he)
        rw [if_neg hik]
      · simp only [hmModify, List.map_cons] at ih ⊢
        rw [if_neg hpk]
        simp only [hmGet]
        rw [if_neg hpi, if_neg hpi, ih]

theorem hmGet_hmInsert_self (ns : Nodes) (k : Nat) (v : GraphNode)
    (h : hmContains ns k = true) : hmGet (hmInsert ns k v) k = some v := by
  unfold hmInsert
  rw [if_pos h]
  unfold hmContains at h
  induction ns with
  | nil => simp [hmGet] at h
  | cons p rest ih =>
    by_cases hp : p.1 = k
    · simp [hmGet, hp]
    · simp only [hmGet, if_neg hp] at h
      simp only [List.map_cons, hmGet, if_neg hp]
      exact ih h

theorem length_hmInsert_contains (ns : Nodes) (k : Nat) (v : GraphNode)
    (h : hmContains ns k = true) : (hmInsert ns k v).length = ns.length := by
  unfold hmInsert
  rw [if_pos h]
  simp

theorem length_hmModify (ns : Nodes) (k : Nat) (f : GraphNode → GraphNode) :
    (hmModify ns k f).length = ns.length := by
  simp [hmModify]

theorem hmGet_hmModify_vector (ns : Nodes) (k : Nat) (g : GraphNode → List Nat)
    (i : Nat) :
    (hmGet (hmModify ns k (fun n => { n with neighbors := g n })) i).map
        GraphNode.vector
      = (hmGet ns i).map GraphNode.vector := by
  rw [hmGet_hmModify]
  by_cases hik : i = k
  · rw [if_pos hik, Option.map_map]
    cases hmGet ns i with
    | none => rfl
    | some n => rfl
  · rw [if_neg hik]

theorem reverseEdgeStep_length (dist : DistFn) (cfg : VamanaConfig) (ns : Nodes)
    (id nbId : Nat) : (reverseEdgeStep dist cfg ns id nbId).length = ns.length := by
  unfold reverseEdgeStep
  cases hmGet ns nbId with
  | none => rfl
  | some nb =>
    simp only []
    split
    · simp [length_hmModify]
    · simp [length_hmModify]

theorem reverseEdgeStep_vector (dist : DistFn) (cfg : VamanaConfig) (ns : Nodes)
    (id nbId i : Nat) :
    (hmGet (reverseEdgeStep dist cfg ns id nbId) i).map GraphNode.vector
      = (hmGet ns i).map GraphNode.vector := by
  unfold reverseEdgeStep
  cases hmGet ns nbId with
  | none => rfl
  | some nb =>
    simp only []
    split
    · rw [hmGet_hmModify_vector, hmGet_hmModify_vector]
    · rw [hmGet_hmModify_vector]

theorem revFold_length (dist : DistFn) (cfg : VamanaConfig) (id : Nat)
    (P : List Nat) (ns : Nodes) :
    (P.foldl (fun ms nbId => reverseEdgeStep dist cfg ms id nbId) ns).length
      = ns.length := by
  induction P generalizing ns with
  | nil => rfl
  | cons q qs ih => rw [List.foldl_cons, ih, reverseEdgeStep_length]

theorem revFold_vector (dist : DistFn) (cfg : VamanaConfig) (id : Nat)
    (P : List Nat) (ns : Nodes) (i : Nat) :
    (hmGet (P.foldl (fun ms nbId => reverseEdgeStep dist cfg ms id nbId) ns) i).map
        GraphNode.vector
      = (hmGet ns i).map GraphNode.vector := by
  induction P generalizing ns with
  | nil => rfl
  | cons q qs ih => rw [List.foldl_cons, ih, reverseEdgeStep_vector]

/-! The reversed Candidate order is a total order. -/

theorem candLe_refl (a : Candidate) : candLe a a :=
  Or.inr ⟨rfl, le_refl _⟩

theorem candLe_total (a b : Candidate) : candLe a b ∨ candLe b a := by
  unfold candLe
  rcases lt_trichotomy a.distance b.distance with h | h | h
  · exact Or.inr (Or.inl h)
  · rcases le_total a.id b.id with hi | hi
    · exact Or.inl (Or.inr ⟨h.symm, hi⟩)
    · exact Or.inr (Or.inr ⟨h, hi⟩)
  · exact Or.inl (Or.inl h)

theorem candLe_trans (a b c : Candidate) (h1 : candLe a b) (h2 : candLe b c) :
    candLe a c := by
  unfold candLe at *
  rcases h1 with h1 | ⟨e1, i1⟩
  · rcases h2 with h2 | ⟨e2, i2⟩
    · exact Or.inl (h2.trans h1)
    · exact Or.inl (lt_of_le_of_lt (le_of_eq e2) h1)
  · rcases h2 with h2 | ⟨e2, i2⟩
    · exact Or.inl (lt_of_lt_of_le h2 (le_of_eq e1))
    · exact Or.inr ⟨e2.trans e1, i1.trans i2⟩

theorem candLe_antisymm (a b : Candidate) (h1 : candLe a b) (h2 : candLe b a) :
    a = b := by
  unfold candLe at *
  rcases h1 with h1 | ⟨e1, i1⟩
  · rcases h2 with h2 | ⟨e2, i2⟩
    · exact absurd h1 (lt_asymm h2)
    · exact absurd h1 (by rw [e2]; exact lt_irrefl _)
  · rcases h2 with h2 | ⟨e2, i2⟩
    · exact absurd h2 (by rw [e1]; exact lt_irrefl _)
    · cases a; cases b
      simp only [Candidate.mk.injEq]
      exact ⟨le_antisymm i1 i2, e1.symm⟩

instance : IsTotal Candidate candLe := ⟨candLe_total⟩

instance : IsTrans Candidate candLe := ⟨candLe_trans⟩

instance : IsRefl Candidate candLe := ⟨candLe_refl⟩

instance : IsAntisymm Candidate candLe := ⟨candLe_antisymm⟩

/-! Basic facts about the map model and the heap drain. -/

theorem hmGet_mem (ns : Nodes) (i : Nat) (n : GraphNode)
    (h : hmGet ns i = some n) : (i, n) ∈ ns := by
  induction ns with
  | nil => simp [hmGet] at h
  | cons p rest ih =>
    by_cases hp : p.1 = i
    · simp only [hmGet, if_pos hp] at h
      cases h
      subst hp
      exact List.mem_cons_self _ _
    · simp only [hmGet, if_neg hp] at h
      exact List.mem_cons_of_mem _ (ih h)

theorem sorted_intoSortedVec (l : List Candidate) :
    (intoSortedVec l).Sorted candLe :=
  List.sorted_insertionSort candLe l

theorem drainTopK_pairwise (best : List Candidate) (k : Nat) :
    (drainTopK best k).Pairwise (fun a b => candLe b a) := by
  unfold drainTopK
  refine List.Pairwise.sublist (List.take_sublist _ _) ?_
  rw [List.pairwise_reverse]
  exact sorted_intoSortedVec best

theorem drainTopK_subset (best : List Candidate) (k : Nat) :
    ∀ c ∈ drainTopK best k, c ∈ best := by
  intro c hc
  unfold drainTopK at hc
  have h1 : c ∈ (intoSortedVec best).reverse :=
    (List.take_sublist _ _).subset hc
  rw [List.mem_reverse] at h1
  unfold intoSortedVec at h1
  exact (List.perm_insertionSort candLe best).subset h1

theorem popDiscard_subset (l : List Candidate) :
    ∀ c ∈ popDiscard l, c ∈ l := by
  intro c hc
  unfold popDiscard popMax at hc
  cases h : heapMax l with
  | none => rw [h] at hc; exact hc
  | some m =>
    rw [h] at hc
    exact (List.erase_sublist m l).subset hc

/-! Claim C10. -/

/-- C10: is_reachable_within_k_hops returns true whenever target = pivot,
for every hop bound k (including 0) and every graph, present or not. -/
theorem c10_reachable_self (idx : VamanaIndex) (t k : Nat) :
    isReachableWithinKHops idx t t k = true := by
  simp [isReachableWithinKHops]

/-! Claim C1. -/

/-- C1 counterexample: adding id 0 to an index that already holds id 0
returns Ok, not an error, contradicting the claimed DuplicateId rejection. -/
theorem c1_counterexample :
    hmContains exIndexSingle.nodes 0 = true ∧
    returnsOk (insertNode exDistZero VamanaConfig.default exIndexSingle 0 [0])
      = true := by
  constructor
  · decide
  · decide

/-- C1 amended: add never returns an error; every index state, id and
vector (duplicate ids and mismatched dimensions included) is accepted. -/
theorem c1_add_always_ok (dist : DistFn) (cfg : VamanaConfig) (idx : VamanaIndex)
    (id : Nat) (v : List ℚ) :
    ∃ idx2, insertNode dist cfg idx id v = .ok idx2 := by
  unfold insertNode
  split
  · exact ⟨_, rfl⟩
  · exact ⟨_, rfl⟩

/-! Claim C8. -/

/-- C8 counterexample: on empty vectors (whose norm is zero) the cosine
distance returns 0, not the claimed 1. -/
theorem c8_counterexample :
    cosineDistance id [] [] = 0 ∧ (0 : QInf) ≠ 1 := by
  constructor
  · rfl
  · decide

/-- C8 amended: for equal-length inputs, empty vectors give distance 0;
nonempty vectors either of which has zero squared norm give distance 1; and
the returned value is always a finite rational in the range 0 to 2. -/
theorem c8_cosine_amended (sq : ℚ → ℚ) (a b : List ℚ) (hlen : a.length = b.length) :
    (a = [] → cosineDistance sq a b = 0) ∧
    (a ≠ [] → l2_norm_squared a = 0 ∨ l2_norm_squared b = 0 →
      cosineDistance sq a b = 1) ∧
    ∃ q : ℚ, cosineDistance sq a b = (q : QInf) ∧ 0 ≤ q ∧ q ≤ 2 := by
  unfold cosineDistance
  rw [if_neg (by simp [hlen])]
  refine ⟨?_, ?_, ?_⟩
  · intro ha
    subst ha
    simp
  · intro ha hz
    rw [if_neg (by simpa [List.isEmpty_iff] using ha), if_pos hz]
  · by_cases ha : a.isEmpty
    · rw [if_pos ha]
      exact ⟨0, rfl, le_refl 0, by norm_num⟩
    · rw [if_neg ha]
      by_cases hz : l2_norm_squared a = 0 ∨ l2_norm_squared b = 0
      · rw [if_pos hz]
        exact ⟨1, rfl, by norm_num, by norm_num⟩
      · rw [if_neg hz]
        refine ⟨_, rfl, ?_, ?_⟩
        · have h1 : min (max (dot_product a b /
              (sq (l2_norm_squared a) * sq (l2_norm_squared b))) (-1)) 1 ≤ 1 :=
            min_le_right _ _
          linarith
        · have h2 : (-1 : ℚ) ≤ min (max (dot_product a b /
              (sq (l2_norm_squared a) * sq (l2_norm_squared b))) (-1)) 1 :=
            le_min (le_max_right _ _) (by norm_num)
          linarith

/-- C8 witness: the amended statement evaluated on the concrete
perpendicular pair from the test suite. -/
theorem c8_cosine_amended_witness :
    ([(1 : ℚ), 0].length = [(0 : ℚ), 1].length) ∧
    (([(1 : ℚ), 0] = ([] : List ℚ) → cosineDistance id [1, 0] [0, 1] = 0) ∧
    ([(1 : ℚ), 0] ≠ ([] : List ℚ) →
      l2_norm_squared [(1 : ℚ), 0] = 0 ∨ l2_norm_squared [(0 : ℚ), 1] = 0 →
      cosineDistance id [1, 0] [0, 1] = 1) ∧
    ∃ q : ℚ, cosineDistance id [1, 0] [0, 1] = (q : QInf) ∧ 0 ≤ q ∧ q ≤ 2) :=
  ⟨by decide, c8_cosine_amended id [1, 0] [0, 1] (by decide)⟩

/-! Claim C9. -/

/-- C9: adding a vector under an already-present id returns Ok, leaves the
node count unchanged, and silently overwrites the stored vector. -/
theorem c9_duplicate_add_overwrites (dist : DistFn) (cfg : VamanaConfig)
    (idx : VamanaIndex) (id : Nat) (v : List ℚ)
    (h : hmContains idx.nodes id = true) :
    ∃ idx2, insertNode dist cfg idx id v = .ok idx2 ∧
      idx2.nodes.length = idx.nodes.length ∧
      (hmGet idx2.nodes id).map GraphNode.vector = some v := by
  have hne : idx.nodes.isEmpty = false := by
    cases hn : idx.nodes with
    | nil => rw [hn] at h; simp [hmContains, hmGet] at h
    | cons p rest => simp [hn]
  unfold insertNode
  rw [if_neg (by simp [hne])]
  refine ⟨_, rfl, ?_, ?_⟩
  · rw [revFold_length, length_hmInsert_contains _ _ _ h]
  · rw [revFold_vector, hmGet_hmInsert_self _ _ _ h]
    rfl

/-- C9 witness: duplicate add over the one-node index. -/
theorem c9_duplicate_add_overwrites_witness :
    hmContains exIndexSingle.nodes 0 = true ∧
    ∃ idx2, insertNode squaredDistance VamanaConfig.default exIndexSingle 0 [0]
        = .ok idx2 ∧
      idx2.nodes.length = exIndexSingle.nodes.length ∧
      (hmGet idx2.nodes 0).map GraphNode.vector = some [0] :=
  ⟨by decide,
   c9_duplicate_add_overwrites squaredDistance VamanaConfig.default exIndexSingle
     0 [0] (by decide)⟩

/-! Counterexamples for claims C2 through C7. -/

/-- C2 counterexample: on the three-node line graph with k = 1 and L = 1
(effective beam width 2), the final best heap is NOT the set of the two
closest observed candidates: the closest observed candidate (id 1 at
distance 1) was evicted in favour of id 2 at distance 100. -/
theorem c2_counterexample :
    (beamSearchRun exDistBeam exNodesBeam [0] 1 1 0).best
        = [⟨2, (100 : QInf)⟩, ⟨0, (9 : QInf)⟩] ∧
    closestCands 2 (beamSearchRun exDistBeam exNodesBeam [0] 1 1 0).observed
        = [⟨1, (1 : QInf)⟩, ⟨0, (9 : QInf)⟩] ∧
    ¬ ((↑(beamSearchRun exDistBeam exNodesBeam [0] 1 1 0).best :
          Multiset Candidate)
        = ↑(closestCands 2
            (beamSearchRun exDistBeam exNodesBeam [0] 1 1 0).observed)) := by
  refine ⟨by decide, by decide, ?_⟩
  decide

/-- C3 counterexample: with sparse ids 0 and 5 the bitmap (sized to the
node count, 2) cannot represent id 5, so search_with_buffer silently drops
the closest node while search_with_beam returns it. -/
theorem c3_counterexample :
    searchWithBuffer exDistSparse exIndexSparse [10] 2 4 ⟨[], [], []⟩
      ≠ searchWithBeam exDistSparse exIndexSparse [10] 2 4 := by
  decide

/-- C4 counterexample: two results at the same distance come back with ids
in DESCENDING order, violating the claimed ascending-id tie-break. -/
theorem c4_counterexample :
    resultsOf (searchWithBeam exDistTwo exIndexTie [1, 1] 2 4)
        = [⟨1, (2 : QInf)⟩, ⟨0, (2 : QInf)⟩] ∧
    ¬ List.Pairwise specResultLe
        (resultsOf (searchWithBeam exDistTwo exIndexTie [1, 1] 2 4)) := by
  refine ⟨by decide, ?_⟩
  decide

/-- C5 counterexample: adding id 0 twice from the empty index leaves node 0
with neighbor list containing 0 twice: a self-loop and a duplicate, so the
node invariants fail after a sequence of adds. -/
theorem c5_counterexample :
    ¬ nodeInvariants VamanaConfig.default.max_degree
        (applyAdds exDistZero VamanaConfig.default [(0, [0]), (0, [0])]).nodes := by
  decide

/-- C6 counterexample: on two equally-distant candidates listed as id 2
then id 1, the code selects the FIRST one in list order (id 2, since
Iterator::min_by keeps the earlier of equal minima), not the claimed
smallest id (id 1): the produced neighbor order is the reverse of the
claimed one. -/
theorem c6_counterexample :
    robustPrune exDistTop exNodesPrune 64 1 exCandsPrune = [2, 1] ∧
    pruneClaimMinId exDistTop (vecIn exNodesPrune) 64 1 exCandsPrune = [1, 2] ∧
    robustPrune exDistTop exNodesPrune 64 1 exCandsPrune
      ≠ pruneClaimMinId exDistTop (vecIn exNodesPrune) 64 1 exCandsPrune := by
  refine ⟨by decide, by decide, ?_⟩
  decide

/-- C7 counterexample: searching a non-empty euclidean index with a query
of the wrong length returns Ok with a result list (distance INFINITY), not
an error. -/
theorem c7_counterexample :
    vamanaSearch (euclideanDistance id) VamanaConfig.default exIndexDim
        [1, 2, 3] 1 = .ok [⟨0, ⊤⟩] := by
  decide

/-! Claim C4, amended ordering. -/

theorem mapResults_pairwise (cands : List Candidate)
    (h : cands.Pairwise (fun a b => candLe b a)) :
    (cands.map (fun c => (⟨c.id, c.distance⟩ : SearchResult))).Pairwise
      resultAfter := by
  rw [List.pairwise_map]
  refine h.imp ?_
  intro a b hab
  unfold candLe at hab
  unfold resultAfter
  dsimp only
  exact hab

theorem beamSearch_pairwise (dist : DistFn) (nodes : Nodes) (query : List ℚ)
    (k beamWidth startId : Nat) :
    (beamSearch dist nodes query k beamWidth startId).Pairwise
      (fun a b => candLe b a) :=
  drainTopK_pairwise _ _

theorem beamSearchWithBuffer_pairwise (dist : DistFn) (nodes : Nodes)
    (query : List ℚ) (k beamWidth startId : Nat) (buffer : SearchBuffer) :
    (beamSearchWithBuffer dist nodes query k beamWidth startId buffer).Pairwise
      (fun a b => candLe b a) := by
  unfold beamSearchWithBuffer
  split
  · exact List.Pairwise.nil
  · exact drainTopK_pairwise _ _

/-- C4 amended: all three search entry points return results sorted
ascending by distance, but results of EQUAL distance appear in DESCENDING
id order (the claimed ascending tie-break is refuted by the
counterexample). -/
theorem c4_results_sorted (dist : DistFn) (cfg : VamanaConfig)
    (idx : VamanaIndex) (query : List ℚ) (k beamWidth : Nat)
    (buffer : SearchBuffer) :
    (resultsOf (vamanaSearch dist cfg idx query k)).Pairwise resultAfter ∧
    (resultsOf (searchWithBeam dist idx query k beamWidth)).Pairwise resultAfter ∧
    (resultsOf (searchWithBuffer dist idx query k beamWidth buffer)).Pairwise
      resultAfter := by
  refine ⟨?_, ?_, ?_⟩
  · unfold vamanaSearch
    split
    · simp [resultsOf]
    · simp only [resultsOf]
      exact mapResults_pairwise _ (beamSearch_pairwise _ _ _ _ _ _)
  · unfold searchWithBeam
    split
    · simp [resultsOf]
    · simp only [resultsOf]
      exact mapResults_pairwise _ (beamSearch_pairwise _ _ _ _ _ _)
  · unfold searchWithBuffer
    split
    · simp [resultsOf]
    · simp only [resultsOf]
      exact mapResults_pairwise _ (beamSearchWithBuffer_pairwise _ _ _ _ _ _ _)

/-! Claim C7, amended behaviour. -/

theorem squaredDistance_top (a b : List ℚ) (h : a.length ≠ b.length) :
    squaredDistance a b = ⊤ := by
  unfold squaredDistance
  rw [if_pos h]

theorem euclideanDistance_top (sq : ℚ → ℚ) (a b : List ℚ)
    (h : a.length ≠ b.length) : euclideanDistance sq a b = ⊤ := by
  unfold euclideanDistance
  rw [squaredDistance_top a b h]
  rfl

theorem visitNeighbor_best_top (dist : DistFn) (nodes : Nodes) (query : List ℚ)
    (ebw : Nat) (s : LoopState) (nid : Nat)
    (hdist : ∀ i n, hmGet nodes i = some n → dist query n.vector = ⊤)
    (hs : ∀ c ∈ s.best, c.distance = ⊤) :
    ∀ c ∈ (visitNeighbor dist nodes query ebw s nid).best, c.distance = ⊤ := by
  unfold visitNeighbor
  split
  · exact hs
  · cases hg : hmGet nodes nid with
    | none => exact hs
    | some nnode =>
      simp only []
      intro c hc
      split at hc
      · rcases List.mem_cons.mp (popDiscard_subset _ _ hc) with hh | ht
        · rw [hh]
          exact hdist nid nnode hg
        · exact hs c ht
      · rcases List.mem_cons.mp hc with hh | ht
        · rw [hh]
          exact hdist nid nnode hg
        · exact hs c ht

theorem beamStep_best_top (dist : DistFn) (nodes : Nodes) (query : List ℚ)
    (ebw : Nat) (s : LoopState) (current : Candidate)
    (hdist : ∀ i n, hmGet nodes i = some n → dist query n.vector = ⊤)
    (hs : ∀ c ∈ s.best, c.distance = ⊤) :
    ∀ c ∈ (beamStep dist nodes query ebw s current).best, c.distance = ⊤ := by
  unfold beamStep
  cases hmGet nodes current.id with
  | none => exact hs
  | some node =>
    simp only []
    induction node.neighbors generalizing s with
    | nil => exact hs
    | cons q qs ih =>
      rw [List.foldl_cons]
      exact ih _ (visitNeighbor_best_top _ _ _ _ _ _ hdist hs)

theorem beamLoop_best_top (dist : DistFn) (nodes : Nodes) (query : List ℚ)
    (ebw fuel : Nat) (s : LoopState)
    (hdist : ∀ i n, hmGet nodes i = some n → dist query n.vector = ⊤)
    (hs : ∀ c ∈ s.best, c.distance = ⊤) :
    ∀ c ∈ (beamLoop dist nodes query ebw fuel s).best, c.distance = ⊤ := by
  induction fuel generalizing s with
  | zero => exact hs
  | succ n ih =>
    unfold beamLoop
    cases hp : popMax s.frontier with
    | none => exact hs
    | some pr =>
      simp only []
      cases hstop : (match heapMax s.best with
        | some furthest =>
          decide (s.best.length ≥ ebw) && decide (pr.1.distance > furthest.distance)
        | none => false)
      · exact ih _ (beamStep_best_top _ _ _ _ _ _ hdist hs)
      · exact hs

theorem beamSearchRun_best_top (dist : DistFn) (nodes : Nodes) (query : List ℚ)
    (k beamWidth startId : Nat)
    (hdist : ∀ i n, hmGet nodes i = some n → dist query n.vector = ⊤) :
    ∀ c ∈ (beamSearchRun dist nodes query k beamWidth startId).best,
      c.distance = ⊤ := by
  unfold beamSearchRun
  cases hsel : (if hmContains nodes startId then some startId
      else hmFirstKey nodes) with
  | none => intro c hc; simp at hc
  | some actual =>
    have hsome : ∃ nd, hmGet nodes actual = some nd := by
      by_cases hcont : hmContains nodes startId
      · rw [if_pos hcont] at hsel
        cases hsel
        unfold hmContains at hcont
        cases hg : hmGet nodes startId with
        | none => rw [hg] at hcont; simp at hcont
        | some nd => exact ⟨nd, rfl⟩
      · rw [if_neg hcont] at hsel
        unfold hmFirstKey at hsel
        cases nodes with
        | nil => simp at hsel
        | cons p rest =>
          simp only [List.head?, Option.map] at hsel
          cases hsel
          exact ⟨p.2, by simp [hmGet]⟩
    rcases hsome with ⟨nd, hnd⟩
    dsimp only
    rw [hnd]
    apply beamLoop_best_top _ _ _ _ _ _ hdist
    intro c hc
    rcases List.mem_singleton.mp hc with rfl
    exact hdist actual nd hnd

/-- C7 amended: a query whose length differs from the dimension of every
stored vector is NOT rejected: search returns Ok, and every returned
distance is the INFINITY sentinel of the euclidean kernel. -/
theorem c7_mismatch_amended (sq : ℚ → ℚ) (cfg : VamanaConfig)
    (idx : VamanaIndex) (query : List ℚ) (k D : Nat)
    (hvec : ∀ p ∈ idx.nodes, p.2.vector.length = D)
    (hq : query.length ≠ D) :
    ∃ rs, vamanaSearch (euclideanDistance sq) cfg idx query k = .ok rs ∧
      ∀ r ∈ rs, r.distance = ⊤ := by
  have hdist : ∀ i n, hmGet idx.nodes i = some n →
      euclideanDistance sq query n.vector = ⊤ := by
    intro i n h
    have hlen : n.vector.length = D := hvec (i, n) (hmGet_mem _ _ _ h)
    exact euclideanDistance_top _ _ _ (by rw [hlen]; exact hq)
  unfold vamanaSearch
  split
  · exact ⟨[], rfl, by simp⟩
  · refine ⟨_, rfl, ?_⟩
    intro r hr
    rw [List.mem_map] at hr
    rcases hr with ⟨c, hc, hrc⟩
    have hb := beamSearchRun_best_top _ _ _ _ _ _ hdist c
      (drainTopK_subset _ _ c hc)
    rw [← hrc]
    exact hb

/-- C7 witness: the amended statement on the concrete one-node index of
dimension 2 with a length-3 query. -/
theorem c7_mismatch_amended_witness :
    (∀ p ∈ exIndexDim.nodes, p.2.vector.length = 2) ∧
    ([(1 : ℚ), 2, 3].length ≠ 2) ∧
    ∃ rs, vamanaSearch (euclideanDistance id) VamanaConfig.default exIndexDim
        [1, 2, 3] 1 = .ok rs ∧ ∀ r ∈ rs, r.distance = ⊤ :=
  ⟨by decide, by decide,
   c7_mismatch_amended id VamanaConfig.default exIndexDim [1, 2, 3] 1 2
     (by decide) (by decide)⟩

/-! Claim C2, amended heap characterization. -/

theorem candLe_of_candLt (a b : Candidate) (h : candLt a b) : candLe a b := by
  unfold candLt at h
  unfold candLe
  rcases h with h | ⟨h1, h2⟩
  · exact Or.inl h
  · exact Or.inr ⟨h1, le_of_lt h2⟩

theorem candLe_of_not_candLt (a b : Candidate) (h : ¬ candLt a b) : candLe b a := by
  unfold candLt at h
  unfold candLe
  push_neg at h
  rcases h with ⟨h1, h2⟩
  rcases lt_trichotomy a.distance b.distance with ht | ht | ht
  · exact Or.inl ht
  · exact Or.inr ⟨ht, h2 ht.symm⟩
  · exact absurd ht (not_lt.mpr h1)

theorem heapMax_eq_none (l : List Candidate) : heapMax l = none ↔ l = [] := by
  cases l with
  | nil => simp [heapMax]
  | cons c cs =>
    simp only [heapMax]
    cases heapMax cs <;> simp

theorem heapMax_mem (l : List Candidate) (m : Candidate) (h : heapMax l = some m) :
    m ∈ l := by
  induction l generalizing m with
  | nil => simp [heapMax] at h
  | cons c cs ih =>
    simp only [heapMax] at h
    cases hcs : heapMax cs with
    | none =>
      rw [hcs] at h
      have hm := Option.some.inj h
      subst hm
      exact List.mem_cons_self _ _
    | some m2 =>
      rw [hcs] at h
      have hm := Option.some.inj h
      subst hm
      split
      · exact List.mem_cons_of_mem _ (ih m2 hcs)
      · exact List.mem_cons_self _ _

theorem heapMax_le (l : List Candidate) (m : Candidate) (h : heapMax l = some m) :
    ∀ c ∈ l, candLe c m := by
  induction l generalizing m with
  | nil => simp [heapMax] at h
  | cons c cs ih =>
    simp only [heapMax] at h
    cases hcs : heapMax cs with
    | none =>
      rw [hcs] at h
      have hm := Option.some.inj h
      subst hm
      have hnil : cs = [] := (heapMax_eq_none cs).mp hcs
      subst hnil
      intro c2 hc2
      rcases List.mem_singleton.mp hc2 with rfl
      exact candLe_refl _
    | some m2 =>
      rw [hcs] at h
      have hm := Option.some.inj h
      subst hm
      intro c2 hc2
      rcases List.mem_cons.mp hc2 with rfl | hmem
      · split
        · exact candLe_of_candLt _ _ (by assumption)
        · exact candLe_refl _
      · split
        · exact ih m2 hcs c2 hmem
        · exact candLe_trans _ _ _ (ih m2 hcs c2 hmem)
            (candLe_of_not_candLt _ _ (by assumption))

theorem popDiscard_spec (l : List Candidate) (hne : l ≠ []) :
    ∃ m, heapMax l = some m ∧ m ∈ l ∧ (∀ c ∈ l, candLe c m) ∧
      popDiscard l = l.erase m := by
  cases hm : heapMax l with
  | none => exact absurd ((heapMax_eq_none l).mp hm) hne
  | some m =>
    refine ⟨m, rfl, heapMax_mem l m hm, heapMax_le l m hm, ?_⟩
    unfold popDiscard popMax
    rw [hm]

theorem mem_sub_iff_count {s t : Multiset Candidate} {o : Candidate} :
    o ∈ s - t ↔ t.count o < s.count o := by
  rw [← Multiset.count_pos, Multiset.count_sub]
  omega

/-- One push into the bounded best heap (push, then pop the heap maximum
when the size exceeds ebw) preserves the farthest-candidates
characterization. -/
theorem heapStep_inv (ebw : Nat) (hebw : 1 ≤ ebw) (best observed : List Candidate)
    (x : Candidate) (hinv : heapHoldsFarthest ebw best observed) :
    heapHoldsFarthest ebw
      (if (x :: best).length > ebw then popDiscard (x :: best) else x :: best)
      (x :: observed) := by
  obtain ⟨hsub, hlen, hdom⟩ := hinv
  have hble : best.length ≤ ebw := by
    rw [hlen]; exact min_le_right _ _
  by_cases hover : (x :: best).length > ebw
  · rw [if_pos hover]
    obtain ⟨m, hm, hmem, hmax, hpd⟩ := popDiscard_spec (x :: best) (by simp)
    rw [hpd]
    have hbl : best.length = ebw := by
      simp only [List.length_cons, gt_iff_lt] at hover
      omega
    have hol : ebw ≤ observed.length := by
      rcases le_total observed.length ebw with hc | hc
      · rw [min_eq_left hc] at hlen; omega
      · exact hc
    refine ⟨?_, ?_, ?_⟩
    · calc (↑((x :: best).erase m) : Multiset Candidate)
          = (↑(x :: best) : Multiset Candidate).erase m :=
            (Multiset.coe_erase _ _).symm
        _ ≤ (↑(x :: best) : Multiset Candidate) := Multiset.erase_le _ _
        _ ≤ (↑(x :: observed) : Multiset Candidate) := by
            rw [← Multiset.cons_coe, ← Multiset.cons_coe]
            exact Multiset.cons_le_cons _ hsub
    · rw [List.length_erase_of_mem hmem]
      simp only [List.length_cons]
      rw [hbl, min_eq_right (by omega)]
      omega
    · intro o ho b hb
      have hb' : b ∈ x :: best := (List.erase_sublist m (x :: best)).subset hb
      by_cases hom : o = m
      · subst hom
        exact hmax b hb'
      · have hco : ((↑((x :: best).erase m) : Multiset Candidate)).count o
            = ((↑(x :: best) : Multiset Candidate)).count o := by
          rw [← Multiset.coe_erase]
          exact Multiset.count_erase_of_ne hom _
        have hcount := mem_sub_iff_count.mp ho
        rw [hco] at hcount
        have h2 : ((↑best : Multiset Candidate)).count o
            < ((↑observed : Multiset Candidate)).count o := by
          rw [← Multiset.cons_coe, ← Multiset.cons_coe,
            Multiset.count_cons, Multiset.count_cons] at hcount
          split at hcount <;> omega
        have ho2 : o ∈ (↑observed : Multiset Candidate) - ↑best :=
          mem_sub_iff_count.mpr h2
        rcases List.mem_cons.mp hb' with hbx | hbb
        · subst hbx
          have hxm : candLe b m := hmax b (List.mem_cons_self _ _)
          rcases List.mem_cons.mp hmem with hmx | hmb
          · subst hmx
            rw [List.erase_cons_head] at hb
            exact hdom o ho2 m hb
          · exact candLe_trans _ _ _ hxm (hdom o ho2 m hmb)
        · exact hdom o ho2 b hbb
  · rw [if_neg hover]
    simp only [List.length_cons, gt_iff_lt, not_lt] at hover
    have heq : (↑best : Multiset Candidate) = ↑observed := by
      apply Multiset.eq_of_le_of_card_le hsub
      rw [Multiset.coe_card, Multiset.coe_card]
      rcases le_total observed.length ebw with hc | hc
      · rw [min_eq_left hc] at hlen; omega
      · rw [min_eq_right hc] at hlen; omega
    have hlobs : observed.length = best.length := by
      have := congrArg Multiset.card heq
      rw [Multiset.coe_card, Multiset.coe_card] at this
      omega
    refine ⟨?_, ?_, ?_⟩
    · rw [← Multiset.cons_coe, ← Multiset.cons_coe]
      exact Multiset.cons_le_cons _ hsub
    · simp only [List.length_cons]
      rw [hlobs, min_eq_left (by omega)]
    · intro o ho b hb
      exfalso
      have hcount := mem_sub_iff_count.mp ho
      rw [← Multiset.cons_coe, ← Multiset.cons_coe,
        Multiset.count_cons, Multiset.count_cons, heq] at hcount
      split at hcount <;> omega

theorem visitNeighbor_inv (dist : DistFn) (nodes : Nodes) (query : List ℚ)
    (ebw : Nat) (hebw : 1 ≤ ebw) (s : LoopState) (nid : Nat)
    (h : heapHoldsFarthest ebw s.best s.observed) :
    heapHoldsFarthest ebw (visitNeighbor dist nodes query ebw s nid).best
      (visitNeighbor dist nodes query ebw s nid).observed := by
  unfold visitNeighbor
  split
  · exact h
  · cases hg : hmGet nodes nid with
    | none => exact h
    | some nnode => exact heapStep_inv ebw hebw s.best s.observed _ h

theorem beamStep_inv (dist : DistFn) (nodes : Nodes) (query : List ℚ)
    (ebw : Nat) (hebw : 1 ≤ ebw) (s : LoopState) (current : Candidate)
    (h : heapHoldsFarthest ebw s.best s.observed) :
    heapHoldsFarthest ebw (beamStep dist nodes query ebw s current).best
      (beamStep dist nodes query ebw s current).observed := by
  unfold beamStep
  cases hmGet nodes current.id with
  | none => exact h
  | some node =>
    simp only []
    induction node.neighbors generalizing s with
    | nil => exact h
    | cons q qs ih =>
      rw [List.foldl_cons]
      exact ih _ (visitNeighbor_inv _ _ _ _ hebw _ _ h)

theorem beamLoop_inv (dist : DistFn) (nodes : Nodes) (query : List ℚ)
    (ebw : Nat) (hebw : 1 ≤ ebw) (fuel : Nat) (s : LoopState)
    (h : heapHoldsFarthest ebw s.best s.observed) :
    heapHoldsFarthest ebw (beamLoop dist nodes query ebw fuel s).best
      (beamLoop dist nodes query ebw fuel s).observed := by
  induction fuel generalizing s with
  | zero => exact h
  | succ n ih =>
    unfold beamLoop
    cases hp : popMax s.frontier with
    | none => exact h
    | some pr =>
      simp only []
      cases hstop : (match heapMax s.best with
        | some furthest =>
          decide (s.best.length ≥ ebw) && decide (pr.1.distance > furthest.distance)
        | none => false)
      · exact ih _ (beamStep_inv _ _ _ _ hebw _ _ h)
      · exact h

/-- C2 amended: the best heap does not keep the L' closest observed
candidates; since both heaps share the reversed Candidate order, the
overflow pop removes the least-distance element, so the final best heap
is exactly the L' FARTHEST observed candidates (among equal distances
those of smallest id are kept), and every pop of either heap yields its
minimum-distance element. -/
theorem c2_amended (dist : DistFn) (nodes : Nodes) (query : List ℚ)
    (k beamWidth startId : Nat) (hebw : 1 ≤ max beamWidth (k * 2)) :
    heapHoldsFarthest (max beamWidth (k * 2))
      (beamSearchRun dist nodes query k beamWidth startId).best
      (beamSearchRun dist nodes query k beamWidth startId).observed ∧
    ∀ (l : List Candidate) (m : Candidate) (rest : List Candidate),
      popMax l = some (m, rest) → ∀ c ∈ l, m.distance ≤ c.distance := by
  constructor
  · unfold beamSearchRun
    cases (if hmContains nodes startId then some startId else hmFirstKey nodes) with
    | none =>
      refine ⟨le_refl _, ?_, ?_⟩
      · simp
      · intro o ho
        exact absurd (mem_sub_iff_count.mp ho) (lt_irrefl _)
    | some actual =>
      dsimp only
      apply beamLoop_inv _ _ _ _ hebw
      refine ⟨le_refl _, ?_, ?_⟩
      · simp only [List.length_cons, List.length_nil]
        rw [min_eq_left (by omega)]
      · intro o ho
        exact absurd (mem_sub_iff_count.mp ho) (lt_irrefl _)
  · intro l m rest hpop c hc
    unfold popMax at hpop
    cases hm : heapMax l with
    | none => rw [hm] at hpop; cases hpop
    | some m2 =>
      rw [hm] at hpop
      have hinj := Option.some.inj hpop
      have hm2 : m2 = m := congrArg Prod.fst hinj
      subst hm2
      have hle := heapMax_le l m2 hm c hc
      unfold candLe at hle
      rcases hle with h1 | ⟨h2, _⟩
      · exact le_of_lt h1
      · exact le_of_eq h2

/-- C2 amended witness: the characterization instantiated on the concrete
three-node graph with k = 1, L = 1. -/
theorem c2_amended_witness :
    1 ≤ max 1 (1 * 2) ∧
    (heapHoldsFarthest (max 1 (1 * 2))
      (beamSearchRun exDistBeam exNodesBeam [0] 1 1 0).best
      (beamSearchRun exDistBeam exNodesBeam [0] 1 1 0).observed ∧
    ∀ (l : List Candidate) (m : Candidate) (rest : List Candidate),
      popMax l = some (m, rest) → ∀ c ∈ l, m.distance ≤ c.distance) :=
  ⟨by decide, c2_amended exDistBeam exNodesBeam [0] 1 1 0 (by decide)⟩

/-! Claim C6, amended pruning equivalence. -/

theorem combineMin_none_left (w : Option (Nat × Candidate)) :
    combineMin none w = w := by
  cases w <;> rfl

theorem combineMin_some_none (q : Nat × Candidate) :
    combineMin (some q) none = some q := rfl

theorem combineMin_some_some (q r : Nat × Candidate) :
    combineMin (some q) (some r)
      = if r.2.distance < q.2.distance then some r else some q := rfl

theorem firstMin_cons_none (p : Nat × Candidate) (l : List (Nat × Candidate))
    (hl : firstMin l = none) : firstMin (p :: l) = some p := by
  unfold firstMin
  rw [hl]

theorem firstMin_cons_some (p : Nat × Candidate) (l : List (Nat × Candidate))
    (q : Nat × Candidate) (hl : firstMin l = some q) :
    firstMin (p :: l) = if q.2.distance < p.2.distance then some q else some p := by
  unfold firstMin
  rw [hl]

theorem minByDistance_eq_combine (l : List (Nat × Candidate)) :
    ∀ acc, l.foldl (fun acc p =>
      match acc with
      | none => some p
      | some q => if p.2.distance < q.2.distance then some p else some q) acc
      = combineMin acc (firstMin l) := by
  induction l with
  | nil =>
    intro acc
    cases acc <;> rfl
  | cons p l ih =>
    intro acc
    rw [List.foldl_cons, ih]
    cases acc with
    | none =>
      show combineMin (some p) (firstMin l) = combineMin none (firstMin (p :: l))
      rw [combineMin_none_left]
      cases hl : firstMin l with
      | none => rw [firstMin_cons_none p l hl, combineMin_some_none]
      | some q => rw [firstMin_cons_some p l q hl, combineMin_some_some]
    | some a =>
      show combineMin (if p.2.distance < a.2.distance then some p else some a)
          (firstMin l) = combineMin (some a) (firstMin (p :: l))
      by_cases hpa : p.2.distance < a.2.distance
      · rw [if_pos hpa]
        cases hl : firstMin l with
        | none =>
          rw [firstMin_cons_none p l hl, combineMin_some_none,
            combineMin_some_some, if_pos hpa]
        | some q =>
          rw [firstMin_cons_some p l q hl]
          rcases lt_or_le q.2.distance p.2.distance with h | h
          · rw [combineMin_some_some, if_pos h, combineMin_some_some,
              if_pos (h.trans hpa)]
          · rw [combineMin_some_some, if_neg (not_lt.mpr h),
              combineMin_some_some, if_pos hpa]
      · have hap : a.2.distance ≤ p.2.distance := not_lt.mp hpa
        rw [if_neg hpa]
        cases hl : firstMin l with
        | none =>
          rw [firstMin_cons_none p l hl, combineMin_some_none,
            combineMin_some_some, if_neg hpa]
        | some q =>
          rw [firstMin_cons_some p l q hl]
          rcases lt_or_le q.2.distance p.2.distance with h | h
          · rw [if_pos h]
          · rw [if_neg (not_lt.mpr h), combineMin_some_some,
              combineMin_some_some, if_neg (not_lt.mpr (hap.trans h)),
              if_neg hpa]

theorem minByDistance_eq_firstMin (l : List (Nat × Candidate)) :
    minByDistance l = firstMin l := by
  unfold minByDistance
  rw [minByDistance_eq_combine l none]
  cases firstMin l <;> rfl

theorem firstMin_eq_none (l : List (Nat × Candidate)) :
    firstMin l = none ↔ l = [] := by
  cases l with
  | nil => simp [firstMin]
  | cons p l =>
    simp only [firstMin]
    cases firstMin l
    · simp
    · simp only []
      constructor
      · intro h
        split at h <;> cases h
      · intro h
        cases h

theorem firstMin_mem (l : List (Nat × Candidate)) (q : Nat × Candidate)
    (h : firstMin l = some q) : q ∈ l := by
  induction l generalizing q with
  | nil => cases h
  | cons p l ih =>
    simp only [firstMin] at h
    cases hl : firstMin l with
    | none =>
      rw [hl] at h
      have := Option.some.inj h
      subst this
      exact List.mem_cons_self _ _
    | some r =>
      rw [hl] at h
      simp only [] at h
      split at h
      · have := Option.some.inj h
        subst this
        exact List.mem_cons_of_mem _ (ih _ hl)
      · have := Option.some.inj h
        subst this
        exact List.mem_cons_self _ _

theorem firstMin_le (l : List (Nat × Candidate)) (q : Nat × Candidate)
    (h : firstMin l = some q) : ∀ x ∈ l, q.2.distance ≤ x.2.distance := by
  induction l generalizing q with
  | nil => cases h
  | cons p l ih =>
    simp only [firstMin] at h
    cases hl : firstMin l with
    | none =>
      rw [hl] at h
      have := Option.some.inj h
      subst this
      have hnil : l = [] := (firstMin_eq_none l).mp hl
      subst hnil
      intro x hx
      rcases List.mem_singleton.mp hx with rfl
      exact le_refl _
    | some r =>
      rw [hl] at h
      simp only [] at h
      intro x hx
      rcases List.mem_cons.mp hx with rfl | hxl
      · split at h
        · have := Option.some.inj h
          subst this
          exact le_of_lt (by assumption)
        · have := Option.some.inj h
          subst this
          exact le_refl _
      · split at h
        · have := Option.some.inj h
          subst this
          exact ih _ hl x hxl
        · have hrp : ¬ r.2.distance < p.2.distance := by assumption
          have := Option.some.inj h
          subst this
          exact le_trans (not_lt.mp hrp) (ih _ hl x hxl)

theorem firstMin_eq_filter_head (l : List (Nat × Candidate)) :
    firstMin l = (l.filter (fun p =>
      decide (∀ q ∈ l, p.2.distance ≤ q.2.distance))).head? := by
  induction l with
  | nil => rfl
  | cons p l ih =>
    cases hl : firstMin l with
    | none =>
      have hnil : l = [] := (firstMin_eq_none l).mp hl
      subst hnil
      rw [firstMin_cons_none p [] hl]
      simp
    | some q =>
      have hqm := firstMin_mem l q hl
      have hql := firstMin_le l q hl
      rw [firstMin_cons_some p l q hl]
      by_cases hqp : q.2.distance < p.2.distance
      · rw [if_pos hqp, List.filter_cons]
        have hp : (decide (∀ r ∈ p :: l, p.2.distance ≤ r.2.distance))
            = false := by
          rw [decide_eq_false_iff_not]
          intro hall
          exact absurd (lt_of_le_of_lt (hall q (List.mem_cons_of_mem _ hqm)) hqp)
            (lt_irrefl _)
        rw [hp, if_neg Bool.false_ne_true]
        have hlf : l.filter (fun x =>
            decide (∀ r ∈ p :: l, x.2.distance ≤ r.2.distance))
            = l.filter (fun x =>
            decide (∀ r ∈ l, x.2.distance ≤ r.2.distance)) := by
          apply List.filter_congr
          intro x hx
          rw [decide_eq_decide]
          constructor
          · intro hall r hr
            exact hall r (List.mem_cons_of_mem _ hr)
          · intro hall r hr
            rcases List.mem_cons.mp hr with rfl | hrl
            · exact le_of_lt (lt_of_le_of_lt (hall q hqm) hqp)
            · exact hall r hrl
        rw [hlf, ← ih, hl]
      · rw [if_neg hqp]
        have hpq : p.2.distance ≤ q.2.distance := not_lt.mp hqp
        rw [List.filter_cons]
        have hp : (decide (∀ r ∈ p :: l, p.2.distance ≤ r.2.distance))
            = true := by
          rw [decide_eq_true_eq]
          intro r hr
          rcases List.mem_cons.mp hr with rfl | hrl
          · exact le_refl _
          · exact le_trans hpq (hql r hrl)
        rw [hp]
        simp only [if_true]
        rfl

theorem minByDistance_eq_firstArgmin (v : List Candidate) :
    minByDistance v.enum = firstArgmin v := by
  rw [minByDistance_eq_firstMin, firstMin_eq_filter_head]
  unfold firstArgmin
  congr 1
  apply List.filter_congr
  intro x hx
  rw [decide_eq_decide]
  have hms : v.enum.map Prod.snd = v := List.enumFrom_map_snd 0 v
  constructor
  · intro hall c hc
    rw [← hms] at hc
    rcases List.mem_map.mp hc with ⟨q, hq, hqc⟩
    rw [← hqc]
    exact hall q hq
  · intro hall q hq
    have hq2 : q.2 ∈ v := by
      rw [← hms]
      exact List.mem_map_of_mem Prod.snd hq
    exact hall q.2 hq2

theorem minByDistance_enum_mem (v : List Candidate) (i : Nat) (c : Candidate)
    (h : minByDistance v.enum = some (i, c)) : c ∈ v := by
  rw [minByDistance_eq_firstMin] at h
  have hm := firstMin_mem _ _ h
  have hms : v.enum.map Prod.snd = v := List.enumFrom_map_snd 0 v
  rw [← hms]
  exact List.mem_map_of_mem Prod.snd hm


theorem robustPruneLoop_length (dist : DistFn) (nodes : Nodes) (maxDeg : Nat)
    (alpha : ℚ) (fuel : Nat) :
    ∀ rem acc, acc.length ≤ maxDeg →
      (robustPruneLoop dist nodes maxDeg alpha fuel rem acc).length ≤ maxDeg := by
  induction fuel with
  | zero => intro rem acc h; exact h
  | succ n ih =>
    intro rem acc h
    unfold robustPruneLoop
    split
    · exact h
    · rename_i hguard
      push_neg at hguard
      cases hmb : minByDistance rem.enum with
      | none => exact h
      | some pr =>
        obtain ⟨i, best⟩ := pr
        apply ih
        rw [List.length_append, List.length_singleton]
        omega

theorem robustPrune_length_le (dist : DistFn) (nodes : Nodes) (maxDeg : Nat)
    (alpha : ℚ) (cands : List Candidate) :
    (robustPrune dist nodes maxDeg alpha cands).length ≤ maxDeg := by
  unfold robustPrune
  split
  · simp
  · exact robustPruneLoop_length dist nodes maxDeg alpha _ _ [] (by simp)

theorem robustPruneLoop_eq_policy (dist : DistFn) (nodes : Nodes) (maxDeg : Nat)
    (alpha : ℚ) (cands0 : List Candidate)
    (hres : ∀ c ∈ cands0, hmContains nodes c.id = true) :
    ∀ fuel rem acc, (∀ c ∈ rem, c ∈ cands0) →
      robustPruneLoop dist nodes maxDeg alpha fuel rem acc
        = prunePolicyFirstTie dist (vecIn nodes) maxDeg alpha fuel rem acc := by
  intro fuel
  induction fuel with
  | zero => intro rem acc _; rfl
  | succ n ih =>
    intro rem acc hsub
    unfold robustPruneLoop prunePolicyFirstTie
    rw [← minByDistance_eq_firstArgmin]
    split
    · rfl
    · cases hmb : minByDistance rem.enum with
      | none => rfl
      | some pr =>
        obtain ⟨i, best⟩ := pr
        have hbm : best ∈ rem := minByDistance_enum_mem rem i best hmb
        have hbres := hres best (hsub best hbm)
        unfold hmContains at hbres
        cases hg : hmGet nodes best.id with
        | none => rw [hg] at hbres; simp at hbres
        | some bestNode =>
          simp only [hg]
          have hveq : vecIn nodes best.id = bestNode.vector := by
            unfold vecIn
            rw [hg]
            rfl
          have hfeq : (rem.eraseIdx i).filter (fun cand =>
              match hmGet nodes cand.id with
              | none => false
              | some cn =>
                decide (cand.distance < alphaMul alpha (dist bestNode.vector cn.vector)))
              = (rem.eraseIdx i).filter (fun w =>
              decide (w.distance < alphaMul alpha
                (dist (vecIn nodes best.id) (vecIn nodes w.id)))) := by
            apply List.filter_congr
            intro w hw
            have hwin : w ∈ cands0 :=
              hsub w ((List.eraseIdx_sublist rem i).subset hw)
            have hwres := hres w hwin
            unfold hmContains at hwres
            cases hgw : hmGet nodes w.id with
            | none => rw [hgw] at hwres; simp at hwres
            | some wn =>
              simp only [hgw]
              have hwv : vecIn nodes w.id = wn.vector := by
                unfold vecIn
                rw [hgw]
                rfl
              rw [hveq, hwv]
          rw [hfeq]
          apply ih
          intro c hc
          exact hsub c ((List.eraseIdx_sublist rem i).subset
            ((List.filter_sublist _).subset hc))

/-- C6 amended: robust_prune returns at most R ids and equals the alpha-RNG
procedure whose ties on the minimum distance select the FIRST minimal
candidate in the remaining list order, the behaviour of Iterator::min_by
(when every candidate id resolves, as in every call the index makes). -/
theorem c6_amended (dist : DistFn) (nodes : Nodes) (maxDeg : Nat) (alpha : ℚ)
    (cands : List Candidate)
    (hres : ∀ c ∈ cands, hmContains nodes c.id = true) :
    robustPrune dist nodes maxDeg alpha cands
      = pruneSpecFirstTie dist (vecIn nodes) maxDeg alpha cands ∧
    (robustPrune dist nodes maxDeg alpha cands).length ≤ maxDeg := by
  refine ⟨?_, robustPrune_length_le dist nodes maxDeg alpha cands⟩
  unfold robustPrune pruneSpecFirstTie
  split
  · rename_i hemp
    rw [List.isEmpty_iff] at hemp
    subst hemp
    rfl
  · exact robustPruneLoop_eq_policy dist nodes maxDeg alpha cands hres
      cands.length cands [] (fun c hc => hc)

/-- C6 witness: the amended equivalence on the concrete two-candidate tie. -/
theorem c6_amended_witness :
    (∀ c ∈ exCandsPrune, hmContains exNodesPrune c.id = true) ∧
    (robustPrune exDistTop exNodesPrune 64 1 exCandsPrune
      = pruneSpecFirstTie exDistTop (vecIn exNodesPrune) 64 1 exCandsPrune ∧
    (robustPrune exDistTop exNodesPrune 64 1 exCandsPrune).length ≤ 64) :=
  ⟨by decide, c6_amended exDistTop exNodesPrune 64 1 exCandsPrune (by decide)⟩

/-! Claim C3, amended equivalence. -/

theorem getD_set_self_true (l : List Bool) (i : Nat) (hi : i < l.length) :
    (l.set i true).getD i false = true := by
  rw [List.getD_eq_getElem?_getD, List.getElem?_set_self hi]
  rfl

theorem getD_set_ne_other (l : List Bool) (i n : Nat) (h : i ≠ n) :
    (l.set i true).getD n false = l.getD n false := by
  rw [List.getD_eq_getElem?_getD, List.getD_eq_getElem?_getD,
    List.getElem?_set_ne h]

theorem hmGet_none_of_ge (nodes : Nodes)
    (hdense : ∀ key ∈ hmKeys nodes, key < nodes.length) (nid : Nat)
    (h : nodes.length ≤ nid) : hmGet nodes nid = none := by
  cases hg : hmGet nodes nid with
  | none => rfl
  | some n =>
    have hmem := hmGet_mem _ _ _ hg
    have hkey : nid ∈ hmKeys nodes := by
      unfold hmKeys
      exact List.mem_map_of_mem Prod.fst hmem
    exact absurd (hdense nid hkey) (by omega)

theorem hmGet_some_lt (nodes : Nodes)
    (hdense : ∀ key ∈ hmKeys nodes, key < nodes.length) (nid : Nat)
    (n : GraphNode) (h : hmGet nodes nid = some n) : nid < nodes.length := by
  have hmem := hmGet_mem _ _ _ h
  exact hdense nid (List.mem_map_of_mem Prod.fst hmem)

theorem visitNeighbor_sim (dist : DistFn) (nodes : Nodes) (query : List ℚ)
    (ebw : Nat) (hdense : ∀ key ∈ hmKeys nodes, key < nodes.length)
    (s : LoopState) (t : BufLoopState) (nid : Nat)
    (hsim : BufSim nodes s t) :
    BufSim nodes (visitNeighbor dist nodes query ebw s nid)
      (visitNeighborBuf dist nodes query ebw t nid) := by
  obtain ⟨hf, hb, hl, hv⟩ := hsim
  unfold visitNeighbor visitNeighborBuf
  by_cases hlt : nid < nodes.length
  · by_cases hvis : nid ∈ s.visited
    · rw [if_pos hvis, if_neg ?bufneg]
      case bufneg =>
        intro hcond
        rw [(hv nid hlt).mpr hvis] at hcond
        exact absurd hcond.2 (by simp)
      exact ⟨hf, hb, hl, hv⟩
    · have hgd : t.visitedBits.getD nid false = false := by
        cases hgdc : t.visitedBits.getD nid false with
        | false => rfl
        | true => exact absurd ((hv nid hlt).mp hgdc) hvis
      rw [if_neg hvis, if_pos ⟨by omega, hgd⟩]
      have hvupd : ∀ n, n < nodes.length →
          ((t.visitedBits.set nid true).getD n false = true ↔
            n ∈ nid :: s.visited) := by
        intro n hn
        by_cases hni : n = nid
        · subst hni
          rw [getD_set_self_true _ _ (by omega)]
          simp
        · rw [getD_set_ne_other _ _ _ (fun he => hni he.symm)]
          rw [hv n hn]
          simp [hni]
      cases hg : hmGet nodes nid with
      | none =>
        exact ⟨hf, hb, by rw [List.length_set]; exact hl, hvupd⟩
      | some nnode =>
        refine ⟨?_, ?_, by rw [List.length_set]; exact hl, hvupd⟩
        · rw [hf]
        · rw [hb]
  · have hcond : ¬ (nid < t.visitedBits.length ∧
        t.visitedBits.getD nid false = false) := by
      intro hc
      rw [hl] at hc
      exact hlt hc.1
    rw [if_neg hcond]
    by_cases hvis : nid ∈ s.visited
    · rw [if_pos hvis]
      exact ⟨hf, hb, hl, hv⟩
    · rw [if_neg hvis, hmGet_none_of_ge nodes hdense nid (by omega)]
      refine ⟨hf, hb, hl, ?_⟩
      intro n hn
      rw [hv n hn]
      constructor
      · exact fun h2 => List.mem_cons_of_mem _ h2
      · intro h2
        rcases List.mem_cons.mp h2 with rfl | h3
        · omega
        · exact h3

theorem beamStep_sim (dist : DistFn) (nodes : Nodes) (query : List ℚ)
    (ebw : Nat) (hdense : ∀ key ∈ hmKeys nodes, key < nodes.length)
    (s : LoopState) (t : BufLoopState) (current : Candidate)
    (hsim : BufSim nodes s t) :
    BufSim nodes (beamStep dist nodes query ebw s current)
      (beamStepBuf dist nodes query ebw t current) := by
  unfold beamStep beamStepBuf
  cases hmGet nodes current.id with
  | none => exact hsim
  | some node =>
    simp only []
    induction node.neighbors generalizing s t with
    | nil => exact hsim
    | cons q qs ih =>
      rw [List.foldl_cons, List.foldl_cons]
      exact ih _ _ (visitNeighbor_sim dist nodes query ebw hdense s t q hsim)

theorem beamLoop_sim (dist : DistFn) (nodes : Nodes) (query : List ℚ)
    (ebw : Nat) (hdense : ∀ key ∈ hmKeys nodes, key < nodes.length)
    (fuel : Nat) :
    ∀ s t, BufSim nodes s t →
      BufSim nodes (beamLoop dist nodes query ebw fuel s)
        (beamLoopBuf dist nodes query ebw fuel t) := by
  induction fuel with
  | zero => intro s t h; exact h
  | succ n ih =>
    intro s t hsim
    obtain ⟨hf, hb, hl, hv⟩ := hsim
    unfold beamLoop beamLoopBuf
    rw [hf, hb]
    cases hp : popMax s.frontier with
    | none => exact ⟨hf, hb, hl, hv⟩
    | some pr =>
      simp only []
      cases hstop : (match heapMax s.best with
        | some furthest =>
          decide (s.best.length ≥ ebw) && decide (pr.1.distance > furthest.distance)
        | none => false)
      · dsimp only [cond]
        exact ih _ _ (beamStep_sim dist nodes query ebw hdense _ _ _
          ⟨rfl, rfl, hl, hv⟩)
      · dsimp only [cond]
        exact ⟨rfl, rfl, hl, hv⟩

theorem getD_replicate_false (len n : Nat) :
    (List.replicate len false).getD n false = false := by
  rw [List.getD_eq_getElem?_getD, List.getElem?_replicate]
  split <;> rfl

theorem bufSim_init (nodes : Nodes) (c0 : Candidate) (actual : Nat)
    (hlt : actual < nodes.length) :
    BufSim nodes ⟨[c0], [c0], [actual], [c0]⟩
      ⟨[c0], [c0], (List.replicate nodes.length false).set actual true⟩ := by
  refine ⟨rfl, rfl, by rw [List.length_set, List.length_replicate], ?_⟩
  intro n hn
  by_cases hna : n = actual
  · subst hna
    rw [getD_set_self_true _ _ (by rw [List.length_replicate]; exact hlt)]
    simp
  · rw [getD_set_ne_other _ _ _ (fun he => hna he.symm), getD_replicate_false]
    simp [hna]

theorem bufRun_best_eq (dist : DistFn) (nodes : Nodes) (query : List ℚ)
    (ebw fuel : Nat) (hdense : ∀ key ∈ hmKeys nodes, key < nodes.length)
    (c0 : Candidate) (actual : Nat) (hlt : actual < nodes.length) :
    (beamLoopBuf dist nodes query ebw fuel
        ⟨[c0], [c0], (List.replicate nodes.length false).set actual true⟩).best
      = (beamLoop dist nodes query ebw fuel ⟨[c0], [c0], [actual], [c0]⟩).best :=
  (beamLoop_sim dist nodes query ebw hdense fuel _ _
    (bufSim_init nodes c0 actual hlt)).2.1

theorem beamSearchWithBuffer_eq (dist : DistFn) (nodes : Nodes) (query : List ℚ)
    (k beamWidth startId : Nat) (buffer : SearchBuffer)
    (hdense : ∀ key ∈ hmKeys nodes, key < nodes.length) :
    beamSearchWithBuffer dist nodes query k beamWidth startId buffer
      = beamSearch dist nodes query k beamWidth startId := by
  unfold beamSearchWithBuffer beamSearch beamSearchRun
  cases hsel : (if hmContains nodes startId then some startId
      else hmFirstKey nodes) with
  | none =>
    dsimp only
    simp [drainTopK, intoSortedVec]
  | some actual =>
    have hkey : actual ∈ hmKeys nodes := by
      by_cases hcont : hmContains nodes startId
      · rw [if_pos hcont] at hsel
        cases hsel
        unfold hmContains at hcont
        cases hg : hmGet nodes startId with
        | none => rw [hg] at hcont; simp at hcont
        | some nd =>
          exact List.mem_map_of_mem Prod.fst (hmGet_mem _ _ _ hg)
      · rw [if_neg hcont] at hsel
        unfold hmFirstKey at hsel
        cases nodes with
        | nil => simp at hsel
        | cons p rest =>
          simp only [List.head?, Option.map] at hsel
          cases hsel
          exact List.mem_cons_self _ _
    have hlt : actual < nodes.length := hdense actual hkey
    dsimp only
    exact congrArg (fun best => drainTopK best k)
      (bufRun_best_eq dist nodes query (max beamWidth (k * 2))
        (nodes.length + 1) hdense _ actual hlt)

/-- C3 amended: with dense ids (every node id below the node count) the
buffer search returns exactly what search_with_beam returns, for any buffer
state, since the buffer is cleared and its bitmap rebuilt at entry. -/
theorem c3_amended (dist : DistFn) (idx : VamanaIndex) (query : List ℚ)
    (k beamWidth : Nat) (buffer : SearchBuffer)
    (hdense : ∀ key ∈ hmKeys idx.nodes, key < idx.nodes.length) :
    searchWithBuffer dist idx query k beamWidth buffer
      = searchWithBeam dist idx query k beamWidth := by
  unfold searchWithBuffer searchWithBeam
  split
  · rfl
  · dsimp only
    rw [beamSearchWithBuffer_eq dist idx.nodes query k beamWidth
      (startIdFor idx) buffer hdense]

/-- C3 witness: equivalence on the dense two-node index, with a fresh
buffer. -/
theorem c3_amended_witness :
    (∀ key ∈ hmKeys exIndexTie.nodes, key < exIndexTie.nodes.length) ∧
    searchWithBuffer exDistTwo exIndexTie [1, 1] 2 4 ⟨[], [], []⟩
      = searchWithBeam exDistTwo exIndexTie [1, 1] 2 4 :=
  ⟨by decide,
   c3_amended exDistTwo exIndexTie [1, 1] 2 4 ⟨[], [], []⟩ (by decide)⟩

/-! Claim C5, amended invariant preservation.  Small facts about the map
model first. -/

theorem hmKeys_hmModify (ns : Nodes) (k : Nat) (f : GraphNode → GraphNode) :
    hmKeys (hmModify ns k f) = hmKeys ns := by
  unfold hmKeys hmModify
  rw [List.map_map]
  apply List.map_congr_left
  intro p _
  by_cases hp : p.1 = k
  · simp [hp]
  · simp [hp]

theorem hmContains_hmModify (ns : Nodes) (k : Nat) (f : GraphNode → GraphNode)
    (m : Nat) : hmContains (hmModify ns k f) m = hmContains ns m := by
  unfold hmContains
  rw [hmGet_hmModify]
  by_cases hmk : m = k
  · rw [if_pos hmk]
    cases hmGet ns m <;> rfl
  · rw [if_neg hmk]

theorem hmGet_append_some (ns l : Nodes) (m : Nat) (n : GraphNode)
    (h : hmGet ns m = some n) : hmGet (ns ++ l) m = some n := by
  induction ns with
  | nil => cases h
  | cons p rest ih =>
    by_cases hp : p.1 = m
    · simp only [hmGet, if_pos hp] at h ⊢
      exact h
    · simp only [hmGet, if_neg hp] at h ⊢
      exact ih h

theorem hmGet_append_none (ns l : Nodes) (m : Nat)
    (h : hmGet ns m = none) : hmGet (ns ++ l) m = hmGet l m := by
  induction ns with
  | nil => rfl
  | cons p rest ih =>
    by_cases hp : p.1 = m
    · simp only [hmGet, if_pos hp] at h
      cases h
    · simp only [hmGet, if_neg hp] at h ⊢
      exact ih h

theorem hmContains_append_right (ns : Nodes) (id : Nat) (v : GraphNode) :
    hmContains (ns ++ [(id, v)]) id = true := by
  unfold hmContains
  cases hg : hmGet ns id with
  | none =>
    rw [hmGet_append_none ns _ _ hg]
    simp [hmGet]
  | some n =>
    rw [hmGet_append_some ns _ _ _ hg]
    rfl

theorem hmContains_append_of (ns l : Nodes) (m : Nat)
    (h : hmContains ns m = true) : hmContains (ns ++ l) m = true := by
  unfold hmContains at h ⊢
  cases hg : hmGet ns m with
  | none => rw [hg] at h; simp at h
  | some n => rw [hmGet_append_some ns _ _ _ hg]; rfl

theorem hmGet_of_mem_nodup (ns : Nodes) (hkeys : (hmKeys ns).Nodup)
    (p : Nat × GraphNode) (hp : p ∈ ns) : hmGet ns p.1 = some p.2 := by
  induction ns with
  | nil => cases hp
  | cons q rest ih =>
    unfold hmKeys at hkeys
    rw [List.map_cons, List.nodup_cons] at hkeys
    rcases List.mem_cons.mp hp with rfl | hmem
    · simp [hmGet]
    · have hne : q.1 ≠ p.1 := by
        intro he
        exact hkeys.1 (he ▸ List.mem_map_of_mem Prod.fst hmem)
      simp only [hmGet, if_neg hne]
      exact ih hkeys.2 hmem

theorem mem_keys_of_contains (ns : Nodes) (m : Nat)
    (h : hmContains ns m = true) : m ∈ hmKeys ns := by
  unfold hmContains at h
  cases hg : hmGet ns m with
  | none => rw [hg] at h; simp at h
  | some n => exact List.mem_map_of_mem Prod.fst (hmGet_mem _ _ _ hg)

theorem contains_of_mem_keys (ns : Nodes) (m : Nat)
    (h : m ∈ hmKeys ns) : hmContains ns m = true := by
  induction ns with
  | nil => cases h
  | cons p rest ih =>
    unfold hmKeys at h
    rw [List.map_cons, List.mem_cons] at h
    by_cases hp : p.1 = m
    · simp [hmContains, hmGet, hp]
    · rcases h with h | h
      · exact absurd h.symm hp
      · unfold hmContains hmGet
        rw [if_neg hp]
        exact ih h

/-! Liveness and id-distinctness of the beam search output. -/

theorem visitNeighbor_live (dist : DistFn) (nodes : Nodes) (query : List ℚ)
    (ebw : Nat) (s : LoopState) (nid : Nat)
    (hs : (∀ c ∈ s.best, hmContains nodes c.id = true ∧ c.id ∈ s.visited) ∧
      (s.best.map Candidate.id).Nodup) :
    (∀ c ∈ (visitNeighbor dist nodes query ebw s nid).best,
      hmContains nodes c.id = true ∧
        c.id ∈ (visitNeighbor dist nodes query ebw s nid).visited) ∧
    ((visitNeighbor dist nodes query ebw s nid).best.map Candidate.id).Nodup := by
  obtain ⟨hlive, hnd⟩ := hs
  unfold visitNeighbor
  split
  · exact ⟨hlive, hnd⟩
  · rename_i hnvis
    cases hg : hmGet nodes nid with
    | none =>
      refine ⟨?_, hnd⟩
      intro c hc
      exact ⟨(hlive c hc).1, List.mem_cons_of_mem _ (hlive c hc).2⟩
    | some nnode =>
      simp only []
      have hcons : ∀ c ∈ (⟨nid, dist query nnode.vector⟩ : Candidate) :: s.best,
          hmContains nodes c.id = true ∧ c.id ∈ nid :: s.visited := by
        intro c hc
        rcases List.mem_cons.mp hc with rfl | hcm
        · exact ⟨by unfold hmContains; rw [hg]; rfl, List.mem_cons_self _ _⟩
        · exact ⟨(hlive c hcm).1, List.mem_cons_of_mem _ (hlive c hcm).2⟩
      have hconsnd : (((⟨nid, dist query nnode.vector⟩ : Candidate) :: s.best).map
          Candidate.id).Nodup := by
        rw [List.map_cons, List.nodup_cons]
        refine ⟨?_, hnd⟩
        intro hmemid
        rcases List.mem_map.mp hmemid with ⟨c, hcm, hcid⟩
        have hcid2 : c.id = nid := hcid
        exact hnvis (hcid2 ▸ (hlive c hcm).2)
      constructor
      · intro c hc
        split at hc
        · exact hcons c (popDiscard_subset _ c hc)
        · exact hcons c hc
      · split
        · have hsub : List.Sublist
              ((popDiscard ((⟨nid, dist query nnode.vector⟩ : Candidate)
                :: s.best)).map Candidate.id)
              ((((⟨nid, dist query nnode.vector⟩ : Candidate) :: s.best)).map
                Candidate.id) := by
            apply List.Sublist.map
            unfold popDiscard popMax
            cases hm : heapMax ((⟨nid, dist query nnode.vector⟩ : Candidate)
                :: s.best) with
            | none => exact List.Sublist.refl _
            | some m => exact List.erase_sublist _ _
          exact hconsnd.sublist hsub
        · exact hconsnd

theorem beamStep_live (dist : DistFn) (nodes : Nodes) (query : List ℚ)
    (ebw : Nat) (s : LoopState) (current : Candidate)
    (hs : (∀ c ∈ s.best, hmContains nodes c.id = true ∧ c.id ∈ s.visited) ∧
      (s.best.map Candidate.id).Nodup) :
    (∀ c ∈ (beamStep dist nodes query ebw s current).best,
      hmContains nodes c.id = true ∧
        c.id ∈ (beamStep dist nodes query ebw s current).visited) ∧
    ((beamStep dist nodes query ebw s current).best.map Candidate.id).Nodup := by
  unfold beamStep
  cases hmGet nodes current.id with
  | none => exact hs
  | some node =>
    simp only []
    induction node.neighbors generalizing s with
    | nil => exact hs
    | cons q qs ih =>
      rw [List.foldl_cons]
      exact ih _ (visitNeighbor_live dist nodes query ebw s q hs)

theorem beamLoop_live (dist : DistFn) (nodes : Nodes) (query : List ℚ)
    (ebw fuel : Nat) (s : LoopState)
    (hs : (∀ c ∈ s.best, hmContains nodes c.id = true ∧ c.id ∈ s.visited) ∧
      (s.best.map Candidate.id).Nodup) :
    (∀ c ∈ (beamLoop dist nodes query ebw fuel s).best,
      hmContains nodes c.id = true) ∧
    ((beamLoop dist nodes query ebw fuel s).best.map Candidate.id).Nodup := by
  induction fuel generalizing s with
  | zero => exact ⟨fun c hc => (hs.1 c hc).1, hs.2⟩
  | succ n ih =>
    unfold beamLoop
    cases hp : popMax s.frontier with
    | none => exact ⟨fun c hc => (hs.1 c hc).1, hs.2⟩
    | some pr =>
      simp only []
      cases hstop : (match heapMax s.best with
        | some furthest =>
          decide (s.best.length ≥ ebw) && decide (pr.1.distance > furthest.distance)
        | none => false)
      · dsimp only [cond]
        exact ih _ (beamStep_live dist nodes query ebw _ pr.1
          ⟨fun c hc => hs.1 c hc, hs.2⟩)
      · dsimp only [cond]
        exact ⟨fun c hc => (hs.1 c hc).1, hs.2⟩

theorem beamSearch_live (dist : DistFn) (nodes : Nodes) (query : List ℚ)
    (k beamWidth startId : Nat) :
    (∀ c ∈ beamSearch dist nodes query k beamWidth startId,
      hmContains nodes c.id = true) ∧
    ((beamSearch dist nodes query k beamWidth startId).map Candidate.id).Nodup := by
  have hbase : (∀ c ∈ (beamSearchRun dist nodes query k beamWidth startId).best,
      hmContains nodes c.id = true) ∧
      ((beamSearchRun dist nodes query k beamWidth startId).best.map
        Candidate.id).Nodup := by
    unfold beamSearchRun
    cases hsel : (if hmContains nodes startId then some startId
        else hmFirstKey nodes) with
    | none => exact ⟨fun c hc => absurd hc (by simp), by simp⟩
    | some actual =>
      have hcont : hmContains nodes actual = true := by
        by_cases hc : hmContains nodes startId
        · rw [if_pos hc] at hsel
          cases hsel
          exact hc
        · rw [if_neg hc] at hsel
          unfold hmFirstKey at hsel
          cases nodes with
          | nil => simp at hsel
          | cons p rest =>
            simp only [List.head?, Option.map] at hsel
            cases hsel
            simp [hmContains, hmGet]
      dsimp only
      apply beamLoop_live
      refine ⟨?_, by simp⟩
      intro c hc
      rcases List.mem_singleton.mp hc with rfl
      exact ⟨hcont, List.mem_singleton.mpr rfl⟩
  constructor
  · intro c hc
    exact hbase.1 c (drainTopK_subset _ _ c hc)
  · unfold beamSearch drainTopK
    have hperm : List.Perm
        (((intoSortedVec (beamSearchRun dist nodes query k beamWidth
          startId).best).reverse).map Candidate.id)
        (((beamSearchRun dist nodes query k beamWidth startId).best).map
          Candidate.id) := by
      apply List.Perm.map
      exact (List.reverse_perm _).trans (List.perm_insertionSort candLe _)
    have hnd := hperm.nodup_iff.mpr hbase.2
    exact hnd.sublist (List.Sublist.map _ (List.take_sublist _ _))

/-! Output specification of robust_prune: the returned ids are distinct and
every one of them is the id of some input candidate. -/

theorem eraseIdx_map_nodup {α β : Type} (f : α → β) (l : List α) (i : Nat) (x : α)
    (hget : l.get? i = some x) (hnd : (l.map f).Nodup) :
    (∀ y ∈ l.eraseIdx i, f y ≠ f x) ∧ ((l.eraseIdx i).map f).Nodup := by
  have hi : i < l.length := (List.get?_eq_some.mp hget).choose
  have hx : l[i] = x := by
    obtain ⟨h2, he⟩ := List.get?_eq_some.mp hget
    exact he
  have hdrop : l.drop i = x :: l.drop (i+1) := by
    rw [List.drop_eq_getElem_cons hi, hx]
  have hsplit : l = l.take i ++ x :: l.drop (i+1) := by
    conv_lhs => rw [← List.take_append_drop i l]
    rw [hdrop]
  have herase : l.eraseIdx i = l.take i ++ l.drop (i+1) :=
    List.eraseIdx_eq_take_drop_succ l i
  have hperm : List.Perm (l.map f) (f x :: ((l.eraseIdx i).map f)) := by
    rw [herase]
    conv_lhs => rw [hsplit]
    rw [List.map_append, List.map_cons, List.map_append]
    exact List.perm_middle
  have hnd2 := hperm.nodup_iff.mp hnd
  rw [List.nodup_cons] at hnd2
  constructor
  · intro y hy he
    exact hnd2.1 (he ▸ List.mem_map_of_mem f hy)
  · exact hnd2.2

theorem minByDistance_enum_get (v : List Candidate) (i : Nat) (c : Candidate)
    (h : minByDistance v.enum = some (i, c)) : v.get? i = some c := by
  rw [minByDistance_eq_firstMin] at h
  exact List.mk_mem_enum_iff_get?.mp (firstMin_mem _ _ h)

theorem robustPruneLoop_spec (dist : DistFn) (nodes : Nodes) (maxDeg : Nat)
    (alpha : ℚ) (P : Nat → Prop) (fuel : Nat) :
    ∀ rem acc, (rem.map Candidate.id).Nodup → acc.Nodup →
      (∀ i ∈ acc, ∀ c ∈ rem, c.id ≠ i) →
      (∀ c ∈ rem, P c.id) → (∀ i ∈ acc, P i) →
      (robustPruneLoop dist nodes maxDeg alpha fuel rem acc).Nodup ∧
      ∀ i ∈ robustPruneLoop dist nodes maxDeg alpha fuel rem acc, P i := by
  induction fuel with
  | zero => intro rem acc _ hacc _ _ hPacc; exact ⟨hacc, hPacc⟩
  | succ n ih =>
    intro rem acc hndrem hacc hdisj hPrem hPacc
    unfold robustPruneLoop
    split
    · exact ⟨hacc, hPacc⟩
    · cases hmb : minByDistance rem.enum with
      | none => exact ⟨hacc, hPacc⟩
      | some pr =>
        obtain ⟨bestIdx, best⟩ := pr
        have hget : rem.get? bestIdx = some best :=
          minByDistance_enum_get rem bestIdx best hmb
        have hbmem : best ∈ rem := minByDistance_enum_mem rem bestIdx best hmb
        obtain ⟨hne_rest, hnd_rest⟩ :=
          eraseIdx_map_nodup Candidate.id rem bestIdx best hget hndrem
        have hmain : ∀ rest1 : List Candidate,
            (∀ c ∈ rest1, c ∈ rem.eraseIdx bestIdx) →
            (rest1.map Candidate.id).Nodup →
            (robustPruneLoop dist nodes maxDeg alpha n rest1
              (acc ++ [best.id])).Nodup ∧
            ∀ i ∈ robustPruneLoop dist nodes maxDeg alpha n rest1
              (acc ++ [best.id]), P i := by
          intro rest1 hsub hnd1
          apply ih
          · exact hnd1
          · rw [List.nodup_append]
            refine ⟨hacc, List.nodup_singleton _, ?_⟩
            intro a ha hb
            rw [List.mem_singleton] at hb
            subst hb
            exact hdisj _ ha best hbmem rfl
          · intro i hi c hc
            have hcr : c ∈ rem.eraseIdx bestIdx := hsub c hc
            rcases List.mem_append.mp hi with hia | hib
            · exact hdisj i hia c ((List.eraseIdx_sublist rem bestIdx).subset hcr)
            · rw [List.mem_singleton] at hib
              subst hib
              exact hne_rest c hcr
          · intro c hc
            exact hPrem c ((List.eraseIdx_sublist rem bestIdx).subset (hsub c hc))
          · intro i hi
            rcases List.mem_append.mp hi with hia | hib
            · exact hPacc i hia
            · rw [List.mem_singleton] at hib
              subst hib
              exact hPrem best hbmem
        refine hmain _ ?_ ?_
        · intro c hc
          cases hbn : hmGet nodes best.id with
          | none => rw [hbn] at hc; exact hc
          | some bestNode => rw [hbn] at hc; exact (List.mem_filter.mp hc).1
        · cases hbn : hmGet nodes best.id with
          | none => exact hnd_rest
          | some bestNode =>
            exact hnd_rest.sublist (List.Sublist.map _ (List.filter_sublist _))

theorem robustPrune_spec (dist : DistFn) (nodes : Nodes) (maxDeg : Nat)
    (alpha : ℚ) (P : Nat → Prop) (cands : List Candidate)
    (hnd : (cands.map Candidate.id).Nodup) (hP : ∀ c ∈ cands, P c.id) :
    (robustPrune dist nodes maxDeg alpha cands).Nodup ∧
    ∀ i ∈ robustPrune dist nodes maxDeg alpha cands, P i := by
  unfold robustPrune
  split
  · exact ⟨List.nodup_nil, by intro i hi; simp at hi⟩
  · exact robustPruneLoop_spec dist nodes maxDeg alpha P cands.length cands []
      hnd List.nodup_nil (by intro i hi; simp at hi) hP (by intro i hi; simp at hi)

/-! Preservation of the node invariants by the reverse-edge installation. -/

theorem mem_hmModify (ns : Nodes) (k : Nat) (f : GraphNode → GraphNode)
    (p : Nat × GraphNode) (hp : p ∈ hmModify ns k f) :
    ∃ q ∈ ns, p = if q.1 = k then (q.1, f q.2) else q := by
  unfold hmModify at hp
  rcases List.mem_map.mp hp with ⟨q, hq, he⟩
  exact ⟨q, hq, he.symm⟩

theorem mem_hmModify_ne (ns : Nodes) (k : Nat) (f : GraphNode → GraphNode)
    (p : Nat × GraphNode) (hp : p ∈ hmModify ns k f) (hpk : p.1 ≠ k) : p ∈ ns := by
  rcases mem_hmModify ns k f p hp with ⟨q, hq, he⟩
  by_cases hqk : q.1 = k
  · rw [if_pos hqk] at he
    subst he
    exact absurd hqk hpk
  · rw [if_neg hqk] at he
    subst he
    exact hq

theorem nodeInvariants_hmModify (maxDeg : Nat) (ns : Nodes) (k : Nat)
    (f : GraphNode → GraphNode)
    (hinv : nodeInvariants maxDeg ns)
    (hf : ∀ q ∈ ns, q.1 = k →
      (f q.2).neighbors.length ≤ maxDeg ∧ k ∉ (f q.2).neighbors ∧
      (f q.2).neighbors.Nodup ∧ ∀ m ∈ (f q.2).neighbors, hmContains ns m = true) :
    nodeInvariants maxDeg (hmModify ns k f) := by
  intro p hp
  rcases mem_hmModify ns k f p hp with ⟨q, hq, he⟩
  by_cases hqk : q.1 = k
  · rw [if_pos hqk] at he
    subst he
    obtain ⟨h1, h2, h3, h4⟩ := hf q hq hqk
    refine ⟨h1, ?_, h3, ?_⟩
    · rw [hqk]
      exact h2
    · intro m hm
      rw [hmContains_hmModify]
      exact h4 m hm
  · rw [if_neg hqk] at he
    subst he
    obtain ⟨h1, h2, h3, h4⟩ := hinv _ hq
    refine ⟨h1, h2, h3, ?_⟩
    intro m hm
    rw [hmContains_hmModify]
    exact h4 m hm

theorem hmModify_hmModify (ns : Nodes) (k : Nat) (f g : GraphNode → GraphNode) :
    hmModify (hmModify ns k f) k g = hmModify ns k (fun n => g (f n)) := by
  unfold hmModify
  rw [List.map_map]
  apply List.map_congr_left
  intro p _
  by_cases hp : p.1 = k
  · simp [hp]
  · simp [hp]

theorem nbCandOf_id (dist : DistFn) (ns1 : Nodes) (basevec : List ℚ) (x : Nat) :
    (nbCandOf dist ns1 basevec x).id = x := by
  unfold nbCandOf
  cases hmGet ns1 x <;> rfl

theorem map_nbCandOf_id (dist : DistFn) (ns1 : Nodes) (basevec : List ℚ)
    (l : List Nat) : (l.map (nbCandOf dist ns1 basevec)).map Candidate.id = l := by
  rw [List.map_map]
  have h : ∀ x ∈ l, (Candidate.id ∘ nbCandOf dist ns1 basevec) x = x :=
    fun x _ => nbCandOf_id dist ns1 basevec x
  rw [List.map_congr_left h]
  simp

theorem reverseEdgeStep_invariants (dist : DistFn) (cfg : VamanaConfig)
    (ns : Nodes) (id nbId : Nat)
    (hkeys : (hmKeys ns).Nodup)
    (hinv : nodeInvariants cfg.max_degree ns)
    (hid : hmContains ns id = true)
    (hne : nbId ≠ id)
    (hfree : ∀ p ∈ ns, p.1 = nbId → id ∉ p.2.neighbors) :
    hmKeys (reverseEdgeStep dist cfg ns id nbId) = hmKeys ns ∧
    nodeInvariants cfg.max_degree (reverseEdgeStep dist cfg ns id nbId) ∧
    ∀ p ∈ reverseEdgeStep dist cfg ns id nbId, p.1 ≠ nbId → p ∈ ns := by
  unfold reverseEdgeStep
  cases hg : hmGet ns nbId with
  | none => exact ⟨rfl, hinv, fun p hp _ => hp⟩
  | some nb =>
    have hmem : (nbId, nb) ∈ ns := hmGet_mem ns nbId nb hg
    have hnb := hinv (nbId, nb) hmem
    have hidfree : id ∉ nb.neighbors := hfree (nbId, nb) hmem rfl
    have hval : ∀ q ∈ ns, q.1 = nbId → q.2 = nb := by
      intro q hq hqk
      have h1 : hmGet ns q.1 = some q.2 := hmGet_of_mem_nodup ns hkeys q hq
      rw [hqk, hg] at h1
      exact (Option.some.inj h1).symm
    have hnewnd : (nb.neighbors ++ [id]).Nodup := by
      rw [List.nodup_append]
      refine ⟨hnb.2.2.1, List.nodup_singleton _, ?_⟩
      intro a ha hb
      rw [List.mem_singleton] at hb
      subst hb
      exact hidfree ha
    have hnbne : nbId ∉ nb.neighbors ++ [id] := by
      rw [List.mem_append, List.mem_singleton]
      rintro (h | h)
      · exact hnb.2.1 h
      · exact hne h
    have hnewres : ∀ m ∈ nb.neighbors ++ [id], hmContains ns m = true := by
      intro m hm
      rcases List.mem_append.mp hm with h | h
      · exact hnb.2.2.2 m h
      · rw [List.mem_singleton] at h
        subst h
        exact hid
    simp only []
    split
    · rename_i hover
      rw [hmModify_hmModify]
      have hprune := robustPrune_spec dist
        (hmModify ns nbId (fun n => { n with neighbors := n.neighbors ++ [id] }))
        cfg.max_degree cfg.alpha
        (fun i => i ≠ nbId ∧ hmContains ns i = true)
        ((nb.neighbors ++ [id]).map (nbCandOf dist
          (hmModify ns nbId (fun n => { n with neighbors := n.neighbors ++ [id] }))
          nb.vector))
        (by rw [map_nbCandOf_id]; exact hnewnd)
        (by
          intro c hc
          rcases List.mem_map.mp hc with ⟨m, hm, hce⟩
          subst hce
          simp only [nbCandOf_id]
          rcases List.mem_append.mp hm with h | h
          · refine ⟨?_, hnb.2.2.2 m h⟩
            intro hmeq
            exact hnb.2.1 (hmeq ▸ h)
          · rw [List.mem_singleton] at h
            subst h
            exact ⟨hne.symm, hid⟩)
      refine ⟨hmKeys_hmModify ns nbId _, ?_,
        fun p hp hpne => mem_hmModify_ne ns nbId _ p hp hpne⟩
      apply nodeInvariants_hmModify cfg.max_degree ns nbId _ hinv
      intro q hq hqk
      refine ⟨?_, ?_, hprune.1, ?_⟩
      · exact robustPrune_length_le _ _ _ _ _
      · intro hmem2
        exact (hprune.2 _ hmem2).1 rfl
      · intro m hm
        exact (hprune.2 m hm).2
    · rename_i hnover
      refine ⟨hmKeys_hmModify ns nbId _, ?_,
        fun p hp hpne => mem_hmModify_ne ns nbId _ p hp hpne⟩
      apply nodeInvariants_hmModify cfg.max_degree ns nbId _ hinv
      intro q hq hqk
      rw [hval q hq hqk]
      refine ⟨Nat.le_of_not_lt hnover, hnbne, hnewnd, hnewres⟩

theorem reverseEdgeFold_invariants (dist : DistFn) (cfg : VamanaConfig) (id : Nat) :
    ∀ (nbrs : List Nat) (ns : Nodes),
      (hmKeys ns).Nodup →
      nodeInvariants cfg.max_degree ns →
      hmContains ns id = true →
      nbrs.Nodup →
      (∀ m ∈ nbrs, m ≠ id) →
      (∀ m ∈ nbrs, ∀ p ∈ ns, p.1 = m → id ∉ p.2.neighbors) →
      hmKeys (nbrs.foldl (fun a nbId => reverseEdgeStep dist cfg a id nbId) ns)
        = hmKeys ns ∧
      nodeInvariants cfg.max_degree
        (nbrs.foldl (fun a nbId => reverseEdgeStep dist cfg a id nbId) ns) := by
  intro nbrs
  induction nbrs with
  | nil => intro ns _ hinv _ _ _ _; exact ⟨rfl, hinv⟩
  | cons b bs ih =>
    intro ns hkeys hinv hid hnd hne hfree
    rw [List.foldl_cons]
    obtain ⟨hk1, hinv1, hunch⟩ := reverseEdgeStep_invariants dist cfg ns id b
      hkeys hinv hid (hne b (List.mem_cons_self b bs))
      (fun p hp hpb => hfree b (List.mem_cons_self b bs) p hp hpb)
    rw [List.nodup_cons] at hnd
    have hres := ih (reverseEdgeStep dist cfg ns id b)
      (by rw [hk1]; exact hkeys)
      hinv1
      (contains_of_mem_keys _ _ (by rw [hk1]; exact mem_keys_of_contains _ _ hid))
      hnd.2
      (fun m hm => hne m (List.mem_cons_of_mem b hm))
      (by
        intro m hm p hp hpm
        have hmb : m ≠ b := fun he => hnd.1 (he ▸ hm)
        have hpns : p ∈ ns := hunch p hp (by rw [hpm]; exact hmb)
        exact hfree m (List.mem_cons_of_mem b hm) p hpns hpm)
    exact ⟨hres.1.trans hk1, hres.2⟩

theorem hmInsert_fresh_eq (ns : Nodes) (k : Nat) (v : GraphNode)
    (h : hmContains ns k = false) : hmInsert ns k v = ns ++ [(k, v)] := by
  unfold hmInsert
  rw [h]
  simp

theorem hmKeys_append_single (ns : Nodes) (k : Nat) (v : GraphNode) :
    hmKeys (ns ++ [(k, v)]) = hmKeys ns ++ [k] := by
  simp [hmKeys]

theorem nodeInvariants_append_fresh (maxDeg : Nat) (ns : Nodes) (k : Nat)
    (v : GraphNode)
    (hinv : nodeInvariants maxDeg ns)
    (hlen : v.neighbors.length ≤ maxDeg)
    (hself : k ∉ v.neighbors)
    (hnd : v.neighbors.Nodup)
    (hres : ∀ m ∈ v.neighbors, hmContains ns m = true) :
    nodeInvariants maxDeg (ns ++ [(k, v)]) := by
  intro p hp
  rcases List.mem_append.mp hp with h | h
  · obtain ⟨h1, h2, h3, h4⟩ := hinv p h
    exact ⟨h1, h2, h3, fun m hm => hmContains_append_of ns _ m (h4 m hm)⟩
  · rw [List.mem_singleton] at h
    subst h
    exact ⟨hlen, hself, hnd, fun m hm => hmContains_append_of ns _ m (hres m hm)⟩

theorem insertNode_fresh (dist : DistFn) (cfg : VamanaConfig) (idx : VamanaIndex)
    (id : Nat) (vector : List ℚ)
    (hkeys : (hmKeys idx.nodes).Nodup)
    (hinv : nodeInvariants cfg.max_degree idx.nodes)
    (hfresh : hmContains idx.nodes id = false) :
    ∃ idx2, insertNode dist cfg idx id vector = .ok idx2 ∧
      hmKeys idx2.nodes = hmKeys idx.nodes ++ [id] ∧
      nodeInvariants cfg.max_degree idx2.nodes := by
  unfold insertNode
  by_cases hemp : idx.nodes.isEmpty = true
  · rw [if_pos hemp]
    have hnil : idx.nodes = [] := List.isEmpty_iff_eq_nil.mp hemp
    refine ⟨_, rfl, ?_, ?_⟩
    · rw [hnil]
      rfl
    · rw [hnil]
      intro p hp
      rw [hmInsert_fresh_eq [] id _ rfl] at hp
      simp only [List.nil_append, List.mem_singleton] at hp
      subst hp
      exact ⟨Nat.zero_le _, List.not_mem_nil id, List.nodup_nil,
        fun m hm => absurd hm (List.not_mem_nil m)⟩
  · rw [if_neg hemp]
    have hns := robustPrune_spec dist idx.nodes cfg.max_degree cfg.alpha
      (fun i => hmContains idx.nodes i = true)
      (beamSearch dist idx.nodes vector cfg.search_list_size cfg.search_list_size
        (idx.start_node.getD ((hmFirstKey idx.nodes).getD 0)))
      (beamSearch_live dist idx.nodes vector cfg.search_list_size
        cfg.search_list_size (idx.start_node.getD ((hmFirstKey idx.nodes).getD 0))).2
      (beamSearch_live dist idx.nodes vector cfg.search_list_size
        cfg.search_list_size (idx.start_node.getD ((hmFirstKey idx.nodes).getD 0))).1
    have hlen := robustPrune_length_le dist idx.nodes cfg.max_degree cfg.alpha
      (beamSearch dist idx.nodes vector cfg.search_list_size cfg.search_list_size
        (idx.start_node.getD ((hmFirstKey idx.nodes).getD 0)))
    have main : ∀ (nbrs : List Nat), nbrs.Nodup → nbrs.length ≤ cfg.max_degree →
        (∀ m ∈ nbrs, hmContains idx.nodes m = true) →
        hmKeys (nbrs.foldl (fun ns nbId => reverseEdgeStep dist cfg ns id nbId)
            (hmInsert idx.nodes id
              { GraphNode.new id vector with neighbors := nbrs }))
          = hmKeys idx.nodes ++ [id] ∧
        nodeInvariants cfg.max_degree
          (nbrs.foldl (fun ns nbId => reverseEdgeStep dist cfg ns id nbId)
            (hmInsert idx.nodes id
              { GraphNode.new id vector with neighbors := nbrs })) := by
      intro nbrs hnd hlen2 hres
      have hneid : ∀ m ∈ nbrs, m ≠ id := by
        intro m hm he
        have h2 := hres m hm
        rw [he, hfresh] at h2
        simp at h2
      rw [hmInsert_fresh_eq idx.nodes id _ hfresh]
      have hid0 : hmContains (idx.nodes ++
          [(id, { GraphNode.new id vector with neighbors := nbrs })]) id = true :=
        hmContains_append_right idx.nodes id _
      have hkeys0 : (hmKeys (idx.nodes ++
          [(id, { GraphNode.new id vector with neighbors := nbrs })])).Nodup := by
        rw [hmKeys_append_single, List.nodup_append]
        refine ⟨hkeys, List.nodup_singleton _, ?_⟩
        intro a ha hb
        rw [List.mem_singleton] at hb
        subst hb
        have hc := contains_of_mem_keys idx.nodes _ ha
        rw [hfresh] at hc
        simp at hc
      have hinv0 : nodeInvariants cfg.max_degree (idx.nodes ++
          [(id, { GraphNode.new id vector with neighbors := nbrs })]) := by
        apply nodeInvariants_append_fresh _ _ _ _ hinv
        · exact hlen2
        · intro hmem
          exact hneid id hmem rfl
        · exact hnd
        · exact hres
      have hfree0 : ∀ m ∈ nbrs, ∀ p ∈ idx.nodes ++
          [(id, { GraphNode.new id vector with neighbors := nbrs })],
          p.1 = m → id ∉ p.2.neighbors := by
        intro m hm p hp hpm hidin
        rcases List.mem_append.mp hp with h | h
        · obtain ⟨_, _, _, h4⟩ := hinv p h
          have hc := h4 id hidin
          rw [hfresh] at hc
          simp at hc
        · rw [List.mem_singleton] at h
          subst h
          exact hneid m hm hpm.symm
      have hfold := reverseEdgeFold_invariants dist cfg id nbrs _
        hkeys0 hinv0 hid0 hnd hneid hfree0
      refine ⟨hfold.1.trans ?_, hfold.2⟩
      rw [hmKeys_append_single]
    exact ⟨_, rfl, (main _ hns.1 hlen hns.2).1, (main _ hns.1 hlen hns.2).2⟩

theorem applyAdds_fold_invariants (dist : DistFn) (cfg : VamanaConfig) :
    ∀ (ops : List (Nat × List ℚ)) (idx : VamanaIndex),
      (hmKeys idx.nodes).Nodup →
      nodeInvariants cfg.max_degree idx.nodes →
      (ops.map Prod.fst).Nodup →
      (∀ p ∈ ops, p.1 ∉ hmKeys idx.nodes) →
      (hmKeys (ops.foldl (fun idx op =>
        match vamanaAdd dist cfg idx op.1 op.2 with
        | .ok idx2 => idx2
        | .error _ => idx) idx).nodes).Nodup ∧
      nodeInvariants cfg.max_degree (ops.foldl (fun idx op =>
        match vamanaAdd dist cfg idx op.1 op.2 with
        | .ok idx2 => idx2
        | .error _ => idx) idx).nodes := by
  intro ops
  induction ops with
  | nil => intro idx hk hi _ _; exact ⟨hk, hi⟩
  | cons op rest ih =>
    intro idx hk hi hnd hfr
    rw [List.foldl_cons]
    have hfresh : hmContains idx.nodes op.1 = false := by
      cases hc : hmContains idx.nodes op.1 with
      | false => rfl
      | true =>
        exact absurd (mem_keys_of_contains _ _ hc)
          (hfr op (List.mem_cons_self op rest))
    obtain ⟨idx2, heq, hkeys2, hinv2⟩ :=
      insertNode_fresh dist cfg idx op.1 op.2 hk hi hfresh
    rw [List.map_cons, List.nodup_cons] at hnd
    have hstep : (match vamanaAdd dist cfg idx op.1 op.2 with
        | .ok idx2 => idx2
        | .error _ => idx) = idx2 := by
      unfold vamanaAdd
      rw [heq]
    rw [hstep]
    apply ih idx2
    · rw [hkeys2, List.nodup_append]
      refine ⟨hk, List.nodup_singleton _, ?_⟩
      intro a ha hb
      rw [List.mem_singleton] at hb
      subst hb
      exact hfr op (List.mem_cons_self op rest) ha
    · exact hinv2
    · exact hnd.2
    · intro p hp
      rw [hkeys2, List.mem_append, List.mem_singleton]
      rintro (h | h)
      · exact hfr p (List.mem_cons_of_mem op hp) h
      · exact hnd.1 (h ▸ List.mem_map_of_mem Prod.fst hp)

/-- C5 (amended): starting from the empty index, after every sequence of
add operations whose ids are pairwise distinct, every stored node satisfies
all four node invariants: at most max_degree neighbors, no self-loop, no
duplicate neighbors, and every neighbor id resolves to a stored node. -/
theorem c5_amended (dist : DistFn) (cfg : VamanaConfig)
    (ops : List (Nat × List ℚ)) (hnd : (ops.map Prod.fst).Nodup) :
    nodeInvariants cfg.max_degree (applyAdds dist cfg ops).nodes := by
  unfold applyAdds
  exact (applyAdds_fold_invariants dist cfg ops emptyIndex
    (by simp [emptyIndex, hmKeys])
    (by intro p hp; exact absurd hp (List.not_mem_nil p))
    hnd
    (by intro p hp; simp [emptyIndex, hmKeys])).2

/-- C5 witness: two adds with the distinct ids 0 and 1 from the empty
index; the invariants hold in the resulting index. -/
theorem c5_amended_witness :
    ((([(0, [0]), (1, [1])] : List (Nat × List ℚ)).map Prod.fst).Nodup) ∧
    nodeInvariants VamanaConfig.default.max_degree
      (applyAdds exDistZero VamanaConfig.default [(0, [0]), (1, [1])]).nodes :=
  ⟨by decide, c5_amended exDistZero VamanaConfig.default [(0, [0]), (1, [1])]
    (by decide)⟩

end DiskAnn
